import Mathlib

/- Verification development for the CV-generation script `create_cv.py`.

The script's verifiable core is embedded shallowly:
* `simple_html_converter` — the markup-normalization pipeline (lines 24-40 of
  the source), built from the exact regex substitutions and string
  replacements the script performs, modelled as explicit left-to-right
  scanners over lists of characters;
* `contact_email` — the `href.replace("mailto:", "")` transformation used for
  the contact email field (lines 56-62);
* `experience_employer` / `experience_duration` — the per-field post-steps on
  experience table cells (lines 87-88);
* `create_pdf` — the orchestration control flow with its try/except structure
  (lines 127-185), modelled over an environment of stage outcomes;
* a document-tree model of the BeautifulSoup traversal used by `scrape_data`
  (lines 43-124).

Characters are compared at code-point level; Python's `\s`, `str.strip` and
`re.IGNORECASE` are modelled over ASCII, which covers every pattern the
script uses. -/

/-- ASCII model of Python's whitespace class `\s` (and of `str.strip`). -/
def isSpace (c : Char) : Bool :=
  c = ' ' || c = '\t' || c = '\n' || c = '\r' || c = '\x0b' || c = '\x0c'

/-- ASCII lowercasing on code points, for the `re.IGNORECASE` flags. -/
def lcN (n : Nat) : Nat := if 65 ≤ n ∧ n ≤ 90 then n + 32 else n

/-- Case-insensitive character comparison (ASCII), as used by the
case-insensitive regex matches of the script. -/
def ciEq (a b : Char) : Bool := lcN a.toNat == lcN b.toNat

theorem char_toNat_inj {a b : Char} (h : a.toNat = b.toNat) : a = b :=
  Char.ext (UInt32.ext h)

theorem ciEq_refl (c : Char) : ciEq c c = true := by simp [ciEq]

/-- For a target character below code point 65 (all the symbol characters of
the script's patterns), case-insensitive equality collapses to equality. -/
theorem ciEq_low {t c : Char} (h : t.toNat < 65) : ciEq t c = true ↔ c = t := by
  constructor
  · intro hc
    simp only [ciEq, beq_iff_eq, lcN] at hc
    apply char_toNat_inj
    split at hc <;> split at hc <;> omega
  · intro hc; subst hc; exact ciEq_refl _

theorem ciEq_low_false {t c : Char} (h : t.toNat < 65) (hne : c ≠ t) :
    ciEq t c = false := by
  cases he : ciEq t c with
  | false => rfl
  | true => exact absurd ((ciEq_low h).mp he) hne

/-- Case-insensitive "starts with" on character lists. -/
def ciPrefixB : List Char → List Char → Bool
  | [], _ => true
  | _ :: _, [] => false
  | a :: as, b :: bs => ciEq a b && ciPrefixB as bs

/-- Exact "starts with" on character lists. -/
def exPrefixB : List Char → List Char → Bool
  | [], _ => true
  | _ :: _, [] => false
  | a :: as, b :: bs => a == b && exPrefixB as bs

/-- Case-insensitive "occurs somewhere" on character lists. -/
def ciInfixB (pat : List Char) : List Char → Bool
  | [] => ciPrefixB pat []
  | c :: cs => ciPrefixB pat (c :: cs) || ciInfixB pat cs

/-- Exact "occurs somewhere" on character lists. -/
def exInfixB (pat : List Char) : List Char → Bool
  | [] => exPrefixB pat []
  | c :: cs => exPrefixB pat (c :: cs) || exInfixB pat cs

theorem ciPrefixB_length {p l : List Char} (h : ciPrefixB p l = true) :
    p.length ≤ l.length := by
  induction p generalizing l with
  | nil => simp
  | cons a as ih =>
    cases l with
    | nil => simp [ciPrefixB] at h
    | cons b bs =>
      simp only [ciPrefixB, Bool.and_eq_true] at h
      simpa using ih h.2

theorem exPrefixB_append_self (p x : List Char) : exPrefixB p (p ++ x) = true := by
  induction p with
  | nil => rfl
  | cons a as ih => simp [exPrefixB, ih]

theorem ciPrefixB_append_self (p x : List Char) : ciPrefixB p (p ++ x) = true := by
  induction p with
  | nil => rfl
  | cons a as ih => simp [ciPrefixB, ciEq_refl, ih]

theorem exPrefixB_iff {p l : List Char} : exPrefixB p l = true ↔ ∃ t, l = p ++ t := by
  constructor
  · intro h
    induction p generalizing l with
    | nil => exact ⟨l, rfl⟩
    | cons a as ih =>
      cases l with
      | nil => simp [exPrefixB] at h
      | cons b bs =>
        simp only [exPrefixB, Bool.and_eq_true, beq_iff_eq] at h
        obtain ⟨t, ht⟩ := ih h.2
        exact ⟨t, by simp [h.1, ht]⟩
  · rintro ⟨t, rfl⟩; exact exPrefixB_append_self p t

/-- Any character of the pattern is matched (case-insensitively) by some
character of a list the pattern starts. -/
theorem ciPrefixB_mem {p l : List Char} (h : ciPrefixB p l = true) {a : Char}
    (ha : a ∈ p) : ∃ d ∈ l, ciEq a d = true := by
  induction p generalizing l with
  | nil => simp at ha
  | cons x xs ih =>
    cases l with
    | nil => simp [ciPrefixB] at h
    | cons b bs =>
      simp only [ciPrefixB, Bool.and_eq_true] at h
      rcases List.mem_cons.mp ha with h1 | h2
      · exact ⟨b, by simp, h1 ▸ h.1⟩
      · obtain ⟨d, hd, hcd⟩ := ih h.2 h2
        exact ⟨d, by simp [hd], hcd⟩

theorem ciInfixB_false_sfx {pat l s : List Char} (h : ciInfixB pat l = false)
    (hs : List.IsSuffix s l) : ciPrefixB pat s = false := by
  induction l with
  | nil =>
    obtain ⟨t, ht⟩ := hs
    have : s = [] := by
      cases t <;> simp_all
    simpa [this, ciInfixB] using h
  | cons c cs ih =>
    obtain ⟨t, ht⟩ := hs
    cases t with
    | nil =>
      simp only [List.nil_append] at ht
      subst ht
      simp only [ciInfixB, Bool.or_eq_false_iff] at h
      exact h.1
    | cons x xs =>
      have hx : xs ++ s = cs := by
        have := ht
        simp only [List.cons_append, List.cons.injEq] at this
        exact this.2
      simp only [ciInfixB, Bool.or_eq_false_iff] at h
      exact ih h.2 ⟨xs, hx⟩

theorem exInfixB_false_sfx {pat l s : List Char} (h : exInfixB pat l = false)
    (hs : List.IsSuffix s l) : exPrefixB pat s = false := by
  induction l with
  | nil =>
    obtain ⟨t, ht⟩ := hs
    have : s = [] := by
      cases t <;> simp_all
    simpa [this, exInfixB] using h
  | cons c cs ih =>
    obtain ⟨t, ht⟩ := hs
    cases t with
    | nil =>
      simp only [List.nil_append] at ht
      subst ht
      simp only [exInfixB, Bool.or_eq_false_iff] at h
      exact h.1
    | cons x xs =>
      have hx : xs ++ s = cs := by
        have := ht
        simp only [List.cons_append, List.cons.injEq] at this
        exact this.2
      simp only [exInfixB, Bool.or_eq_false_iff] at h
      exact ih h.2 ⟨xs, hx⟩

/-- If the pattern contains a symbol character (code point below 65) that the
list does not contain, the pattern occurs nowhere in the list. -/
theorem ciInfixB_false_of_missing {pat l : List Char} {t : Char} (htl : t.toNat < 65)
    (htp : t ∈ pat) (habs : t ∉ l) : ciInfixB pat l = false := by
  cases hinf : ciInfixB pat l with
  | false => rfl
  | true =>
    exfalso
    induction l with
    | nil =>
      cases pat with
      | nil => simp at htp
      | cons p ps => simp [ciInfixB, ciPrefixB] at hinf
    | cons c cs ih =>
      simp only [ciInfixB, Bool.or_eq_true] at hinf
      rcases hinf with h1 | h2
      · obtain ⟨d, hd, hcd⟩ := ciPrefixB_mem h1 htp
        exact habs (((ciEq_low htl).mp hcd) ▸ hd)
      · exact ih (fun hm => habs (by simp [hm])) h2

/-- Removal of trailing whitespace, the tail half of Python's `str.strip`. -/
def dropTrail (l : List Char) : List Char := (l.reverse.dropWhile isSpace).reverse

/-- Model of Python's `str.strip()` (line 40 of the source). -/
def pstrip (l : List Char) : List Char := dropTrail (l.dropWhile isSpace)

/-- `true` when the list is empty or its head does not satisfy `p`. -/
def headNotP (p : Char → Bool) : List Char → Bool
  | [] => true
  | c :: _ => !p c

theorem dropWhile_eq_self {p : Char → Bool} {l : List Char}
    (h : headNotP p l = true) : l.dropWhile p = l := by
  cases l with
  | nil => rfl
  | cons c cs =>
    simp only [headNotP, Bool.not_eq_true'] at h
    simp [List.dropWhile_cons, h]

theorem dropWhile_head_false {p : Char → Bool} {l : List Char} {c : Char}
    {cs : List Char} (h : l.dropWhile p = c :: cs) : p c = false := by
  induction l with
  | nil => simp at h
  | cons a as ih =>
    rw [List.dropWhile_cons] at h
    split at h
    · exact ih h
    · rename_i hnp
      cases h
      exact Bool.eq_false_iff.mpr hnp

theorem headNotP_dropWhile (p : Char → Bool) (l : List Char) :
    headNotP p (l.dropWhile p) = true := by
  cases hd : l.dropWhile p with
  | nil => rfl
  | cons c cs => simp [headNotP, dropWhile_head_false hd]

theorem dropWhile_idem (p : Char → Bool) (l : List Char) :
    (l.dropWhile p).dropWhile p = l.dropWhile p :=
  dropWhile_eq_self (headNotP_dropWhile p l)

theorem dropTrail_idem (l : List Char) : dropTrail (dropTrail l) = dropTrail l := by
  simp [dropTrail, List.reverse_reverse, dropWhile_idem]

theorem dropTrail_pfx (m : List Char) : List.IsPrefix (dropTrail m) m := by
  have h1 : List.IsSuffix (m.reverse.dropWhile isSpace) m.reverse :=
    List.dropWhile_suffix _
  have h2 : List.IsSuffix (dropTrail m).reverse m.reverse := by
    simpa [dropTrail, List.reverse_reverse] using h1
  have h3 := (List.reverse_suffix).mp h2
  simpa using h3

theorem dropTrail_headNot {m : List Char} (h : headNotP isSpace m = true) :
    headNotP isSpace (dropTrail m) = true := by
  obtain ⟨t, ht⟩ := dropTrail_pfx m
  cases hd : dropTrail m with
  | nil => rfl
  | cons c cs =>
    have hm : m = c :: (cs ++ t) := by rw [← ht, hd]; simp
    rw [hm] at h
    simpa [headNotP] using h

theorem pstrip_idem (l : List Char) : pstrip (pstrip l) = pstrip l := by
  unfold pstrip
  rw [dropWhile_eq_self (dropTrail_headNot (headNotP_dropWhile isSpace l)),
    dropTrail_idem]

theorem pstrip_eq_self {l : List Char} (h1 : headNotP isSpace l = true)
    (h2 : headNotP isSpace l.reverse = true) : pstrip l = l := by
  unfold pstrip dropTrail
  rw [dropWhile_eq_self h1, dropWhile_eq_self h2, List.reverse_reverse]

theorem pstrip_subset {c : Char} {l : List Char} (h : c ∈ pstrip l) : c ∈ l := by
  unfold pstrip dropTrail at h
  rw [List.mem_reverse] at h
  have h2 := (List.dropWhile_suffix isSpace).subset h
  rw [List.mem_reverse] at h2
  exact (List.dropWhile_suffix isSpace).subset h2

/-- Fuel-indexed left-to-right scan-and-substitute: the shape shared by
Python's `re.sub(pattern, "", s)` and `str.replace(old, new)` for the
concrete patterns the script uses.  At each position the matcher either
fires (returning replacement text and the rest of the input after the
non-overlapping match, which the scan continues from) or the character is
kept and the scan moves one position right. -/
def scanSub (m : List Char → Option (List Char × List Char)) :
    Nat → List Char → List Char
  | _, [] => []
  | 0, l => l
  | fuel + 1, c :: cs =>
    match m (c :: cs) with
    | some (r, rest) => r ++ scanSub m fuel rest
    | none => c :: scanSub m fuel cs

/-- The scan with enough fuel to always finish. -/
def scanSubT (m : List Char → Option (List Char × List Char))
    (l : List Char) : List Char :=
  scanSub m l.length l

/-- Matchers that consume at least one character when firing. -/
def Shrinks (m : List Char → Option (List Char × List Char)) : Prop :=
  ∀ l r rest, m l = some (r, rest) → rest.length < l.length

theorem Shrinks.nil_none {m : List Char → Option (List Char × List Char)}
    (h : Shrinks m) : m [] = none := by
  cases hm : m [] with
  | none => rfl
  | some p =>
    have := h [] p.1 p.2 (by rw [hm])
    simp at this

theorem scanSub_fuel {m : List Char → Option (List Char × List Char)}
    (h : Shrinks m) :
    ∀ f1 f2 l, l.length ≤ f1 → l.length ≤ f2 → scanSub m f1 l = scanSub m f2 l := by
  intro f1
  induction f1 with
  | zero =>
    intro f2 l h1 h2
    have : l = [] := by
      cases l with
      | nil => rfl
      | cons c cs => simp at h1
    subst this
    cases f2 <;> rfl
  | succ f ih =>
    intro f2 l h1 h2
    cases l with
    | nil => cases f2 <;> rfl
    | cons c cs =>
      cases f2 with
      | zero => simp at h2
      | succ f2' =>
        cases hm : m (c :: cs) with
        | some p =>
          obtain ⟨r, rest⟩ := p
          have hlt := h _ _ _ hm
          simp only [List.length_cons] at h1 h2 hlt
          simp only [scanSub, hm]
          rw [ih f2' rest (by omega) (by omega)]
        | none =>
          simp only [List.length_cons] at h1 h2
          simp only [scanSub, hm]
          rw [ih f2' cs (by omega) (by omega)]

theorem scanSubT_cons_none {m : List Char → Option (List Char × List Char)}
    {c : Char} {cs : List Char} (hm : m (c :: cs) = none) :
    scanSubT m (c :: cs) = c :: scanSubT m cs := by
  simp [scanSubT, scanSub, hm]

theorem scanSubT_match {m : List Char → Option (List Char × List Char)}
    (h : Shrinks m) {l r rest : List Char} (hm : m l = some (r, rest)) :
    scanSubT m l = r ++ scanSubT m rest := by
  cases l with
  | nil => rw [h.nil_none] at hm; cases hm
  | cons c cs =>
    have hlt := h _ _ _ hm
    simp only [List.length_cons] at hlt
    have step : scanSubT m (c :: cs) = r ++ scanSub m cs.length rest := by
      simp [scanSubT, scanSub, hm]
    rw [step, scanSub_fuel h cs.length rest.length rest (by omega) le_rfl]
    rfl

theorem scanSubT_skip {m : List Char → Option (List Char × List Char)}
    {trig : Char → Bool}
    (htrig : ∀ c cs, trig c = false → m (c :: cs) = none)
    {a b : List Char} (ha : ∀ c ∈ a, trig c = false) :
    scanSubT m (a ++ b) = a ++ scanSubT m b := by
  induction a with
  | nil => simp
  | cons c as ih =>
    have hm : m (c :: (as ++ b)) = none := htrig _ _ (ha c (by simp))
    rw [List.cons_append, scanSubT_cons_none hm,
      ih (fun x hx => ha x (by simp [hx]))]
    rfl

theorem scanSubT_id_mem {m : List Char → Option (List Char × List Char)}
    {need : Char} (hneed : ∀ x, m x ≠ none → need ∈ x) {l : List Char}
    (habs : need ∉ l) : scanSubT m l = l := by
  induction l with
  | nil => rfl
  | cons c cs ih =>
    have hm : m (c :: cs) = none := by
      by_contra hne
      exact habs (hneed _ hne)
    rw [scanSubT_cons_none hm, ih (fun hmem => habs (by simp [hmem]))]

theorem scanSubT_id_sfx {m : List Char → Option (List Char × List Char)}
    {l : List Char} (hall : ∀ s, List.IsSuffix s l → m s = none) :
    scanSubT m l = l := by
  induction l with
  | nil => rfl
  | cons c cs ih =>
    rw [scanSubT_cons_none (hall _ (List.suffix_refl _))]
    rw [ih (fun s hs => hall s (hs.trans (List.suffix_cons c cs)))]

/-- Matcher for Python's `str.replace(pat, repl)`: fires exactly when the
input starts with `pat`. -/
def replM (pat repl : List Char) (l : List Char) : Option (List Char × List Char) :=
  if exPrefixB pat l && !pat.isEmpty then some (repl, l.drop pat.length) else none

theorem replM_shrinks (pat repl : List Char) : Shrinks (replM pat repl) := by
  intro l r rest hm
  unfold replM at hm
  split at hm
  · rename_i hc
    simp only [Bool.and_eq_true] at hc
    obtain ⟨t, rfl⟩ := exPrefixB_iff.mp hc.1
    cases hm
    cases pat with
    | nil => simp [List.isEmpty] at hc
    | cons p ps =>
      rw [List.drop_left]
      simp only [List.length_append, List.length_cons]
      omega
  · cases hm

theorem replM_none_head {p0 c : Char} {ps repl cs : List Char}
    (h : (p0 == c) = false) : replM (p0 :: ps) repl (c :: cs) = none := by
  simp [replM, exPrefixB, h]

theorem replM_fire (p0 : Char) (ps repl rest : List Char) :
    replM (p0 :: ps) repl ((p0 :: ps) ++ rest) = some (repl, rest) := by
  have h1 : exPrefixB (p0 :: ps) ((p0 :: ps) ++ rest) = true :=
    exPrefixB_append_self _ _
  have h2 : ((p0 :: ps) ++ rest).drop (p0 :: ps).length = rest :=
    List.drop_left _ _
  unfold replM
  rw [h1, h2]
  simp [List.isEmpty]

theorem replM_need {p0 : Char} {ps repl x : List Char}
    (h : replM (p0 :: ps) repl x ≠ none) : p0 ∈ x := by
  unfold replM at h
  split at h
  · rename_i hc
    simp only [Bool.and_eq_true] at hc
    obtain ⟨t, rfl⟩ := exPrefixB_iff.mp hc.1
    simp
  · simp at h

/-- The pattern of the case-insensitive regex `</?tag>` with an
all-whitespace tail, as used by `re.sub(r"</p>\s*$", ...)` — see
`closeM`. -/
def closePat (tag : List Char) : List Char := '<' :: '/' :: tag ++ ['>']

/-- Matcher for `re.sub(r"</tag>\s*$", "", text)`: the regex matches at a
position exactly when the closing tag sits there (case-insensitively) and
everything after it is whitespace; the match then extends to the end of the
string, so the scan both deletes it and terminates. -/
def closeM (tag : List Char) (l : List Char) : Option (List Char × List Char) :=
  if ciPrefixB (closePat tag) l && (l.drop (closePat tag).length).all isSpace then
    some ([], [])
  else none

theorem closeM_shrinks (tag : List Char) : Shrinks (closeM tag) := by
  intro l r rest hm
  unfold closeM at hm
  split at hm
  · rename_i hc
    simp only [Bool.and_eq_true] at hc
    have hlen := ciPrefixB_length hc.1
    cases hm
    simp only [List.length_nil]
    simp only [closePat, List.length_cons, List.length_append] at hlen
    omega
  · cases hm

theorem closeM_none_not_lt {tag cs : List Char} {c : Char} (h : c ≠ '<') :
    closeM tag (c :: cs) = none := by
  have : ciPrefixB (closePat tag) (c :: cs) = false := by
    simp [closePat, ciPrefixB, ciEq_low_false (by decide) h]
  simp [closeM, this]

theorem closeM_none_second {tag r : List Char} {c : Char}
    (h : ciEq '/' c = false) : closeM tag ('<' :: c :: r) = none := by
  have : ciPrefixB (closePat tag) ('<' :: c :: r) = false := by
    simp [closePat, ciPrefixB, h]
  simp [closeM, this]

theorem closeM_need {tag x : List Char} (h : closeM tag x ≠ none) : '<' ∈ x := by
  unfold closeM at h
  split at h
  · rename_i hc
    simp only [Bool.and_eq_true] at hc
    obtain ⟨d, hd, hcd⟩ := ciPrefixB_mem hc.1 (a := '<') (by simp [closePat])
    rwa [(ciEq_low (by decide)).mp hcd] at hd
  · simp at h

theorem closeM_fire (tag ws : List Char) (hws : ws.all isSpace = true) :
    closeM tag (closePat tag ++ ws) = some ([], []) := by
  simp [closeM, ciPrefixB_append_self, List.drop_left, hws]

/-- Scan to the first `>` with `.` matching anything — the lazy `.*?>` under
`re.DOTALL`, used by the `^\s*<p.*?>` and `^\s*<td.*?>` substitutions. -/
def scanToGtAll : List Char → Option (List Char)
  | [] => none
  | c :: cs => if c = '>' then some cs else scanToGtAll cs

/-- Scan to the first `>` with `.` not matching a newline — the lazy `.*?>`
without `re.DOTALL`, used by the `</?span.*?>` substitution. -/
def scanToGtLine : List Char → Option (List Char)
  | [] => none
  | c :: cs => if c = '>' then some cs else if c = '\n' then none else scanToGtLine cs

/-- Scan to the first `"` with `.` not matching a newline — the lazy `.*?"`
of the `style=".*?"` substitution. -/
def scanToQuoteLine : List Char → Option (List Char)
  | [] => none
  | c :: cs => if c = '"' then some cs else if c = '\n' then none else scanToQuoteLine cs

theorem scanToGtAll_lt {l r : List Char} (h : scanToGtAll l = some r) :
    r.length < l.length := by
  induction l generalizing r with
  | nil => simp [scanToGtAll] at h
  | cons c cs ih =>
    unfold scanToGtAll at h
    split at h
    · cases h; simp
    · have := ih h
      simp only [List.length_cons]
      omega

theorem scanToGtLine_lt {l r : List Char} (h : scanToGtLine l = some r) :
    r.length < l.length := by
  induction l generalizing r with
  | nil => simp [scanToGtLine] at h
  | cons c cs ih =>
    unfold scanToGtLine at h
    split at h
    · cases h; simp
    · split at h
      · cases h
      · have := ih h
        simp only [List.length_cons]
        omega

theorem scanToQuoteLine_lt {l r : List Char} (h : scanToQuoteLine l = some r) :
    r.length < l.length := by
  induction l generalizing r with
  | nil => simp [scanToQuoteLine] at h
  | cons c cs ih =>
    unfold scanToQuoteLine at h
    split at h
    · cases h; simp
    · split at h
      · cases h
      · have := ih h
        simp only [List.length_cons]
        omega

theorem scanToGtAll_fire {inner : List Char} (h : ∀ c ∈ inner, c ≠ '>')
    (b : List Char) : scanToGtAll (inner ++ '>' :: b) = some b := by
  induction inner with
  | nil => simp [scanToGtAll]
  | cons c cs ih =>
    have hc : c ≠ '>' := h c (by simp)
    simp only [List.cons_append]
    unfold scanToGtAll
    simp only [hc, if_false]
    exact ih (fun x hx => h x (by simp [hx]))

theorem scanToGtLine_fire {inner : List Char}
    (h : ∀ c ∈ inner, c ≠ '>' ∧ c ≠ '\n') (b : List Char) :
    scanToGtLine (inner ++ '>' :: b) = some b := by
  induction inner with
  | nil => simp [scanToGtLine]
  | cons c cs ih =>
    have hc := h c (by simp)
    simp only [List.cons_append]
    unfold scanToGtLine
    simp only [hc.1, hc.2, if_false]
    exact ih (fun x hx => h x (by simp [hx]))

theorem scanToQuoteLine_fire {inner : List Char}
    (h : ∀ c ∈ inner, c ≠ '"' ∧ c ≠ '\n') (b : List Char) :
    scanToQuoteLine (inner ++ '"' :: b) = some b := by
  induction inner with
  | nil => simp [scanToQuoteLine]
  | cons c cs ih =>
    have hc := h c (by simp)
    simp only [List.cons_append]
    unfold scanToQuoteLine
    simp only [hc.1, hc.2, if_false]
    exact ih (fun x hx => h x (by simp [hx]))

/-- Tail of the span-tag matcher: after `<` (and an optional `/`), the regex
`</?span.*?>` needs `span` case-insensitively and then a lazy run of
non-newline characters up to the first `>`. -/
def spanTail (r2 : List Char) : Option (List Char × List Char) :=
  if ciPrefixB ['s', 'p', 'a', 'n'] r2 then
    match scanToGtLine (r2.drop 4) with
    | some after => some ([], after)
    | none => none
  else none

/-- Matcher for `re.sub(r"</?span.*?>", "", text, flags=re.IGNORECASE)`.
When `<` is followed by `/` the optional `/?` commits to it (falling back to
the empty alternative can never succeed, since `span` cannot match at the
`/`). -/
def spanM (l : List Char) : Option (List Char × List Char) :=
  match l with
  | c :: rest =>
    if c = '<' then
      match rest with
      | c2 :: r2 => if c2 = '/' then spanTail r2 else spanTail rest
      | [] => spanTail []
    else none
  | [] => none

/-- Matcher for `re.sub(r'style=".*?"', "", text, flags=re.IGNORECASE)`. -/
def styleM (l : List Char) : Option (List Char × List Char) :=
  if ciPrefixB ['s', 't', 'y', 'l', 'e', '=', '"'] l then
    match scanToQuoteLine (l.drop 7) with
    | some after => some ([], after)
    | none => none
  else none

theorem spanTail_lt {r2 r rest : List Char} (h : spanTail r2 = some (r, rest)) :
    rest.length < r2.length + 1 := by
  unfold spanTail at h
  split at h
  · rename_i hp
    cases hg : scanToGtLine (r2.drop 4) with
    | none => rw [hg] at h; cases h
    | some after =>
      rw [hg] at h
      cases h
      have h1 := scanToGtLine_lt hg
      have h2 : (r2.drop 4).length = r2.length - 4 := List.length_drop 4 r2
      omega
  · cases h

theorem spanM_shrinks : Shrinks spanM := by
  intro l r rest hm
  cases l with
  | nil => simp [spanM] at hm
  | cons c cs =>
    by_cases hc : c = '<'
    · subst hc
      cases cs with
      | nil => simp [spanM, spanTail, ciPrefixB] at hm
      | cons c2 r2 =>
        by_cases h2 : c2 = '/'
        · subst h2
          simp only [spanM, if_pos rfl] at hm
          have := spanTail_lt hm
          simp only [List.length_cons]
          omega
        · simp only [spanM, if_pos rfl, if_neg h2] at hm
          have := spanTail_lt hm
          simp only [List.length_cons] at this ⊢
          omega
    · simp [spanM, hc] at hm

theorem spanM_none_not_lt {c : Char} {cs : List Char} (h : c ≠ '<') :
    spanM (c :: cs) = none := by
  simp [spanM, h]

theorem spanM_none_open_second {c2 : Char} {r : List Char}
    (h2 : c2 ≠ '/') (hs : ciEq 's' c2 = false) :
    spanM ('<' :: c2 :: r) = none := by
  simp [spanM, h2, spanTail, ciPrefixB, hs]

theorem spanM_none_close_second {c2 : Char} {r : List Char}
    (hs : ciEq 's' c2 = false) :
    spanM ('<' :: '/' :: c2 :: r) = none := by
  simp [spanM, spanTail, ciPrefixB, hs]

theorem spanM_need {x : List Char} (h : spanM x ≠ none) : '<' ∈ x := by
  unfold spanM at h
  cases x with
  | nil => simp at h
  | cons c cs =>
    by_cases hc : c = '<'
    · simp [hc]
    · simp [hc] at h

theorem spanM_fire {inner : List Char} (hin : ∀ c ∈ inner, c ≠ '>' ∧ c ≠ '\n')
    (b : List Char) :
    spanM ('<' :: 's' :: 'p' :: 'a' :: 'n' :: (inner ++ '>' :: b)) =
      some ([], b) := by
  have hgt : scanToGtLine (inner ++ '>' :: b) = some b := scanToGtLine_fire hin b
  simp [spanM, spanTail, ciPrefixB, ciEq_refl, hgt]

theorem styleM_none_head {c : Char} {cs : List Char} (hs : ciEq 's' c = false) :
    styleM (c :: cs) = none := by
  simp [styleM, ciPrefixB, hs]

theorem styleM_need {x : List Char} (h : styleM x ≠ none) : '"' ∈ x := by
  unfold styleM at h
  split at h
  · rename_i hp
    obtain ⟨d, hd, hcd⟩ := ciPrefixB_mem hp (a := '"') (by simp)
    rwa [(ciEq_low (by decide)).mp hcd] at hd
  · simp at h

theorem styleM_shrinks : Shrinks styleM := by
  intro l r rest hm
  unfold styleM at hm
  split at hm
  · rename_i hp
    have hlen := ciPrefixB_length hp
    simp only [List.length_cons, List.length_nil] at hlen
    cases hg : scanToQuoteLine (l.drop 7) with
    | none => rw [hg] at hm; cases hm
    | some after =>
      rw [hg] at hm
      cases hm
      have h1 := scanToQuoteLine_lt hg
      have h2 : (l.drop 7).length = l.length - 7 := List.length_drop 7 l
      omega
  · cases hm

theorem styleM_fire {inner : List Char} (hin : ∀ c ∈ inner, c ≠ '"' ∧ c ≠ '\n')
    (b : List Char) :
    styleM ('s' :: 't' :: 'y' :: 'l' :: 'e' :: '=' :: '"' :: (inner ++ '"' :: b)) =
      some ([], b) := by
  have hq : scanToQuoteLine (inner ++ '"' :: b) = some b := scanToQuoteLine_fire hin b
  simp [styleM, ciPrefixB, ciEq_refl, hq]

/-- The anchored match of `re.sub(r"^\s*<tag.*?>", "", text)` after the
leading whitespace: `<tag` case-insensitively, then a lazy `.*?>` under
`re.DOTALL`. -/
def openMatch (tag : List Char) (l : List Char) : Option (List Char) :=
  if ciPrefixB ('<' :: tag) l then scanToGtAll (l.drop (tag.length + 1)) else none

/-- Model of `re.sub(r"^\s*<tag.*?>", "", text, flags=re.IGNORECASE | re.DOTALL)`
(lines 28 and 30 of the source): anchored at the start, so at most one match,
consisting of the leading whitespace, `<tag` and everything up to the first
`>`. -/
def stripOpen (tag : List Char) (l : List Char) : List Char :=
  match openMatch tag (l.dropWhile isSpace) with
  | some rest => rest
  | none => l

theorem openMatch_none_second {tag r2 : List Char} {t0 c : Char}
    (h : ciEq t0 c = false) : openMatch (t0 :: tag) ('<' :: c :: r2) = none := by
  simp [openMatch, ciPrefixB, h]

/-- If nothing before the first `<` is anything but whitespace-or-clean text
and the character after that `<` does not open the tag, the anchored
substitution does not fire. -/
theorem openMatch_dropWhile_none {tag r2 u : List Char} {t0 c : Char}
    (hu : ∀ x ∈ u, x ≠ '<') (h : ciEq t0 c = false) :
    openMatch (t0 :: tag) ((u ++ '<' :: c :: r2).dropWhile isSpace) = none := by
  induction u with
  | nil =>
    rw [List.nil_append, dropWhile_eq_self (by simp [headNotP, isSpace])]
    exact openMatch_none_second h
  | cons x xs ih =>
    by_cases hx : isSpace x
    · rw [List.cons_append, List.dropWhile_cons]
      simp only [hx, if_true]
      exact ih (fun y hy => hu y (by simp [hy]))
    · rw [List.cons_append, List.dropWhile_cons]
      simp only [hx, if_false]
      have hxlt : x ≠ '<' := hu x (by simp)
      have : ciPrefixB ('<' :: t0 :: tag) (x :: (xs ++ '<' :: c :: r2)) = false := by
        simp [ciPrefixB, ciEq_low_false (by decide) hxlt]
      simp [openMatch, this]

theorem stripOpen_id_mixed {g r u : List Char} {a c : Char}
    (hu : ∀ x ∈ u, x ≠ '<') (h : ciEq a c = false) :
    stripOpen (a :: g) (u ++ '<' :: c :: r) = u ++ '<' :: c :: r := by
  unfold stripOpen
  rw [openMatch_dropWhile_none hu h]

theorem stripOpen_id_no_lt {tag l : List Char} (habs : '<' ∉ l) :
    stripOpen tag l = l := by
  unfold stripOpen
  cases hm : openMatch tag (l.dropWhile isSpace) with
  | none => rfl
  | some rest =>
    exfalso
    unfold openMatch at hm
    split at hm
    · rename_i hp
      obtain ⟨d, hd, hcd⟩ := ciPrefixB_mem hp (a := '<') (by simp)
      rw [(ciEq_low (by decide)).mp hcd] at hd
      exact habs ((List.dropWhile_suffix isSpace).subset hd)
    · cases hm

theorem stripOpen_id_no_mark {tag l : List Char}
    (h : ciInfixB ('<' :: tag) l = false) : stripOpen tag l = l := by
  unfold stripOpen
  cases hm : openMatch tag (l.dropWhile isSpace) with
  | none => rfl
  | some rest =>
    exfalso
    unfold openMatch at hm
    split at hm
    · rename_i hp
      rw [ciInfixB_false_sfx h (List.dropWhile_suffix isSpace)] at hp
      cases hp
    · cases hm

/-- Model of `simple_html_converter` (source lines 24-40) on the serialized
text of the node: the two anchored wrapper-strips for `p` and `td`, the
`strong`→`b` and `<br>`→`<br/>` literal replacements, the span-tag and
`style="..."` removals, then `strip()`. -/
def convL (l : List Char) : List Char :=
  pstrip
    (scanSubT styleM
      (scanSubT spanM
        (scanSubT (replM ['<', 'b', 'r', '>'] ['<', 'b', 'r', '/', '>'])
          (scanSubT (replM ['<', '/', 's', 't', 'r', 'o', 'n', 'g', '>'] ['<', '/', 'b', '>'])
            (scanSubT (replM ['<', 's', 't', 'r', 'o', 'n', 'g', '>'] ['<', 'b', '>'])
              (scanSubT (closeM ['t', 'd'])
                (stripOpen ['t', 'd']
                  (scanSubT (closeM ['p'])
                    (stripOpen ['p'] l)))))))))

/-- `simple_html_converter` on an already-stringified node. -/
def simple_html_converter (s : String) : String := ⟨convL s.data⟩

/-- Python's `str(x)` for an optional node value (the node itself being
represented by its serialized text): `str(None)` is the string `"None"`. -/
def strOfOptNode : Option String → String
  | none => "None"
  | some s => s

/-- `simple_html_converter` as called on a node lookup that may have returned
`None` — the function begins with `text = str(text_node)` (line 26). -/
def simple_html_converter_node (o : Option String) : String :=
  simple_html_converter (strOfOptNode o)

/-- The contact email transformation of `scrape_data` (lines 57-59):
`href.replace("mailto:", "")`. -/
def contact_email (href : String) : String :=
  ⟨scanSubT (replM ['m', 'a', 'i', 'l', 't', 'o', ':'] []) href.data⟩

/-- The experience employer field (line 87):
`simple_html_converter(cols[1]).replace("<br/>", ", ")`. -/
def experience_employer (cell : String) : String :=
  ⟨scanSubT (replM ['<', 'b', 'r', '/', '>'] [',', ' ']) (simple_html_converter cell).data⟩

/-- The experience duration field (line 88):
`simple_html_converter(cols[2]).replace("<br/>", " - ")`. -/
def experience_duration (cell : String) : String :=
  ⟨scanSubT (replM ['<', 'b', 'r', '/', '>'] [' ', '-', ' ']) (simple_html_converter cell).data⟩

/-- Outcome of opening and parsing the source HTML file (lines 129-134):
either it succeeds, or `open` raises `FileNotFoundError`, or opening/parsing
raises some other exception (e.g. a `UnicodeDecodeError` or a parser-feature
error), which the `except FileNotFoundError` clause does not catch. -/
inductive OpenRes where
  | ok
  | fileNotFound
  | otherError (msg : String)
deriving DecidableEq

/-- Outcome of a stage that the script wraps in `try ... except Exception`
(template loading) or does not wrap at all (template rendering). -/
inductive StageRes where
  | ok
  | error (msg : String)
deriving DecidableEq

/-- Outcome of the `pdfkit.from_string` call (lines 157-185): success, an
`IOError` whose text mentions the missing wkhtmltopdf executable, another
`IOError`, or any other exception. -/
inductive PdfRes where
  | ok
  | ioNoWk
  | ioOther (msg : String)
  | otherError (msg : String)
deriving DecidableEq

/-- The environment of stage outcomes a run of `create_pdf` encounters.
`scrapeOk` is whether `scrape_data` returned a record; `scrape_data` catches
every exception internally and returns `None` on failure (lines 121-124). -/
structure RunEnv where
  openRes : OpenRes
  scrapeOk : Bool
  templateRes : StageRes
  renderRes : StageRes
  pdfRes : PdfRes
deriving DecidableEq

/-- Result of a run: either the function returns normally (recording whether
the `pdfkit.from_string` backend write call was reached), or an exception
escapes `create_pdf`. -/
inductive RunOutcome where
  | finished (pdfCalled : Bool)
  | raised (msg : String)
deriving DecidableEq

/-- Control-flow model of `create_pdf` (lines 127-185).

* The file open/parse is guarded only by `except FileNotFoundError`; any
  other exception propagates.
* A `None` record from `scrape_data` returns early.
* Template loading is guarded by `except Exception`.
* `template.render(data)` (line 153) is not inside any `try` block, so a
  render failure propagates.
* The `pdfkit.from_string` block is guarded by `except IOError` and
  `except Exception`, so every failure there is caught and printed. -/
def create_pdf (e : RunEnv) : RunOutcome :=
  match e.openRes with
  | .fileNotFound => .finished false
  | .otherError m => .raised m
  | .ok =>
    if e.scrapeOk = false then .finished false
    else
      match e.templateRes with
      | .error _ => .finished false
      | .ok =>
        match e.renderRes with
        | .error m => .raised m
        | .ok =>
          match e.pdfRes with
          | .ok => .finished true
          | .ioNoWk => .finished true
          | .ioOther _ => .finished true
          | .otherError _ => .finished true

/-- Whether an exception escaped the top-level run. -/
def raisedB : RunOutcome → Bool
  | .raised _ => true
  | .finished _ => false

/-- Whether the backend write call `pdfkit.from_string` was reached. -/
def pdfReachedB : RunOutcome → Bool
  | .finished b => b
  | .raised _ => false

mutual
/-- Minimal model of a parsed HTML node: a text fragment or an element with a
tag name and children (attributes are not modelled). -/
inductive Node where
  | text (s : String)
  | elem (tag : String) (children : NodeList)
inductive NodeList where
  | nil
  | cons (n : Node) (ns : NodeList)
end

mutual
/-- All descendants of a node in document order (each node precedes its own
descendants), the order in which BeautifulSoup's `find_all` reports
matches. -/
def Node.desc : Node → List Node
  | .text _ => []
  | .elem _ cs => NodeList.desc cs
def NodeList.desc : NodeList → List Node
  | .nil => []
  | .cons n ns => n :: Node.desc n ++ NodeList.desc ns
end

def nodeTag : Node → Option String
  | .text _ => none
  | .elem t _ => some t

def isTag (t : String) (n : Node) : Bool := nodeTag n == some t

/-- `node.find_all(t)`: all descendant elements with the given tag, in
document order. -/
def findAll (t : String) (n : Node) : List Node := (Node.desc n).filter (isTag t)

/-- `node.find(t)`: the first such descendant, or `None`. -/
def findFirst (t : String) (n : Node) : Option Node := (findAll t n).head?

mutual
/-- The text fragments below a node, in document order. -/
def Node.texts : Node → List String
  | .text s => [s]
  | .elem _ cs => NodeList.texts cs
def NodeList.texts : NodeList → List String
  | .nil => []
  | .cons n ns => Node.texts n ++ NodeList.texts ns
end

/-- `node.get_text(strip=True)`: each text fragment stripped, then joined. -/
def getText (n : Node) : String :=
  String.join ((Node.texts n).map (fun s => ⟨pstrip s.data⟩))

mutual
/-- Serialized text of a node — the `str(node)` the script passes to
`simple_html_converter`. -/
def nodeStr : Node → String
  | .text s => s
  | .elem t cs => "<" ++ t ++ ">" ++ nodeStrL cs ++ "</" ++ t ++ ">"
def nodeStrL : NodeList → String
  | .nil => ""
  | .cons n ns => nodeStr n ++ nodeStrL ns
end

/-- First element with tag `p` in a sibling list —
`find_next_sibling("p")` seen from the node whose following siblings these
are. -/
def NodeList.firstP : NodeList → Option Node
  | .nil => none
  | .cons n ns => if isTag "p" n then some n else ns.firstP

mutual
/-- Every `h3` descendant in document order, paired with its following
sibling `p` element (if any) — the traversal of the projects loop
(lines 71-77). -/
def Node.projPairs : Node → List (Node × Option Node)
  | .text _ => []
  | .elem _ cs => NodeList.projPairs cs
def NodeList.projPairs : NodeList → List (Node × Option Node)
  | .nil => []
  | .cons n ns =>
    (if isTag "h3" n then [(n, ns.firstP)] else []) ++
      Node.projPairs n ++ NodeList.projPairs ns
end

mutual
theorem projPairs_fst_node (n : Node) :
    (Node.projPairs n).map Prod.fst = findAll "h3" n := by
  cases n with
  | text s => rfl
  | elem t cs =>
    show (NodeList.projPairs cs).map Prod.fst = (NodeList.desc cs).filter (isTag "h3")
    exact projPairs_fst_list cs
theorem projPairs_fst_list (cs : NodeList) :
    (NodeList.projPairs cs).map Prod.fst = (NodeList.desc cs).filter (isTag "h3") := by
  cases cs with
  | nil => rfl
  | cons n ns =>
    have h1 := projPairs_fst_node n
    have h2 := projPairs_fst_list ns
    show ((if isTag "h3" n then [(n, ns.firstP)] else []) ++
        Node.projPairs n ++ NodeList.projPairs ns).map Prod.fst =
      (n :: Node.desc n ++ NodeList.desc ns).filter (isTag "h3")
    unfold findAll at h1
    by_cases hn : isTag "h3" n = true <;>
      simp [List.filter_cons, List.filter_append, hn, h1, h2]
end

/-- The record of sequence-valued fields `scrape_data` builds. -/
structure CVSeqs where
  projects : List (String × String)
  experience : List (String × String × String)
  education : List (String × String × String)
  skills : List String
  achievements : List String
deriving DecidableEq

/-- Per-element extraction over a list where any failure (a Python exception
in the loop body) aborts the whole extraction. -/
def optMapM {α β : Type} (f : α → Option β) : List α → Option (List β)
  | [] => some []
  | a :: as =>
    match f a, optMapM f as with
    | some b, some bs => some (b :: bs)
    | _, _ => none

theorem optMapM_length {α β : Type} {f : α → Option β} {l : List α}
    {l' : List β} (h : optMapM f l = some l') : l'.length = l.length := by
  induction l generalizing l' with
  | nil => simp [optMapM] at h; simp [← h]
  | cons a as ih =>
    unfold optMapM at h
    cases hf : f a with
    | none => rw [hf] at h; cases h
    | some b =>
      rw [hf] at h
      cases hrest : optMapM f as with
      | none => rw [hrest] at h; cases h
      | some bs =>
        rw [hrest] at h
        cases h
        simp [ih hrest]

/-- An experience table row (lines 83-90): the three `td` cells give title,
employer (converted, then `<br/>` joined with a comma-space) and duration
(converted, then `<br/>` joined with a space-hyphen-space).  Fewer than
three cells raises `IndexError`, so the extraction fails. -/
def expRow (row : Node) : Option (String × String × String) :=
  match findAll "td" row with
  | c0 :: c1 :: c2 :: _ =>
    some (getText c0, experience_employer (nodeStr c1),
      experience_duration (nodeStr c2))
  | _ => none

/-- An education table row (lines 97-105): three plain-text cells. -/
def eduRow (row : Node) : Option (String × String × String) :=
  match findAll "td" row with
  | c0 :: c1 :: c2 :: _ => some (getText c0, getText c1, getText c2)
  | _ => none

/-- The section anchors of the document, abstracting the heading-text and
class lookups of `scrape_data` that locate them. -/
structure SourceDoc where
  projectsArticle : Node
  expTable : Node
  eduTable : Node
  skillsList : Node
  achList : Node

/-- The sequence-valued fields built by `scrape_data` (lines 68-117): each
`h3` project paired with its sibling paragraph; the `tr` rows of each
table's first `tbody` (a missing `tbody` raises `AttributeError` on `None`,
a short row raises `IndexError`, and the enclosing `except` then yields no
record at all); the stripped `li` texts of the two lists. -/
def extractSeqs (d : SourceDoc) : Option CVSeqs :=
  match findFirst "tbody" d.expTable, findFirst "tbody" d.eduTable with
  | some etb, some dtb =>
    match optMapM expRow (findAll "tr" etb), optMapM eduRow (findAll "tr" dtb) with
    | some exps, some edus =>
      some
        { projects :=
            (Node.projPairs d.projectsArticle).map
              (fun pr => (getText pr.1, simple_html_converter_node (pr.2.map nodeStr)))
          experience := exps
          education := edus
          skills := (findAll "li" d.skillsList).map getText
          achievements := (findAll "li" d.achList).map getText }
    | _, _ => none
  | _, _ => none

/-- A `td` cell with one text child. -/
def tdCell (s : String) : Node := .elem "td" (.cons (.text s) .nil)

/-- A `tr` row with three `td` cells. -/
def trRow3 (a b c : String) : Node :=
  .elem "tr" (.cons (tdCell a) (.cons (tdCell b) (.cons (tdCell c) .nil)))

/-- A table with a header row inside `thead` and two body rows inside
`tbody`. -/
def sampleExpTable : Node :=
  .elem "table"
    (.cons (.elem "thead"
        (.cons (.elem "tr" (.cons (.elem "th" (.cons (.text "Job") .nil)) .nil)) .nil))
      (.cons (.elem "tbody"
          (.cons (trRow3 "Dev" "Acme" "2020") (.cons (trRow3 "Ops" "Beta" "2021") .nil)))
        .nil))

def sampleEduTable : Node :=
  .elem "table" (.cons (.elem "tbody" (.cons (trRow3 "UFS" "BSc" "2010") .nil)) .nil)

def sampleProjects : Node :=
  .elem "article"
    (.cons (.elem "h3" (.cons (.text "P1") .nil))
      (.cons (.elem "p" (.cons (.text "D1") .nil)) .nil))

def sampleSkills : Node :=
  .elem "ul"
    (.cons (.elem "li" (.cons (.text "R") .nil))
      (.cons (.elem "li" (.cons (.text "Python") .nil)) .nil))

def sampleAch : Node := .elem "ul" (.cons (.elem "li" (.cons (.text "Award") .nil)) .nil)

def sampleDoc : SourceDoc :=
  ⟨sampleProjects, sampleExpTable, sampleEduTable, sampleSkills, sampleAch⟩

/-- A block the scan passes through emitting `o`, independently of what
follows. -/
def Emits (m : List Char → Option (List Char × List Char))
    (a o : List Char) : Prop :=
  ∀ b, scanSubT m (a ++ b) = o ++ scanSubT m b

/-- A final block: the scan of exactly this input produces `o`. -/
def EmitsEnd (m : List Char → Option (List Char × List Char))
    (a o : List Char) : Prop :=
  scanSubT m a = o

theorem Emits.append {m : List Char → Option (List Char × List Char)}
    {a o a' o' : List Char} (h : Emits m a o) (h' : Emits m a' o') :
    Emits m (a ++ a') (o ++ o') := by
  intro b
  rw [List.append_assoc, h, h', List.append_assoc]

theorem scanSubT_nil (m : List Char → Option (List Char × List Char)) :
    scanSubT m [] = [] := rfl

theorem Emits.stop {m : List Char → Option (List Char × List Char)}
    {a o : List Char} (h : Emits m a o) : EmitsEnd m a o := by
  have := h []
  rw [List.append_nil, scanSubT_nil, List.append_nil] at this
  exact this

theorem Emits.seq_end {m : List Char → Option (List Char × List Char)}
    {a o t ot : List Char} (h : Emits m a o) (ht : EmitsEnd m t ot) :
    EmitsEnd m (a ++ t) (o ++ ot) := by
  unfold EmitsEnd at ht ⊢
  rw [h t, ht]

theorem Emits.of_skip {m : List Char → Option (List Char × List Char)}
    {trig : Char → Bool} (htrig : ∀ c cs, trig c = false → m (c :: cs) = none)
    {a : List Char} (ha : ∀ c ∈ a, trig c = false) : Emits m a a :=
  fun _ => scanSubT_skip htrig ha

theorem Emits.of_step {m : List Char → Option (List Char × List Char)}
    {c : Char} (h : ∀ r, m (c :: r) = none) : Emits m [c] [c] := by
  intro b
  rw [show ([c] ++ b) = c :: b from rfl, scanSubT_cons_none (h b)]
  rfl

theorem Emits.of_step2 {m : List Char → Option (List Char × List Char)}
    {x y : Char} (h1 : ∀ r, m (x :: y :: r) = none)
    (h2 : ∀ r, m (y :: r) = none) : Emits m [x, y] [x, y] := by
  intro b
  rw [show ([x, y] ++ b) = x :: y :: b from rfl,
    scanSubT_cons_none (h1 b), scanSubT_cons_none (h2 b)]
  rfl

theorem Emits.of_step3 {m : List Char → Option (List Char × List Char)}
    {x y z : Char} (h1 : ∀ r, m (x :: y :: z :: r) = none)
    (h2 : ∀ r, m (y :: z :: r) = none) (h3 : ∀ r, m (z :: r) = none) :
    Emits m [x, y, z] [x, y, z] := by
  intro b
  rw [show ([x, y, z] ++ b) = x :: y :: z :: b from rfl,
    scanSubT_cons_none (h1 b), scanSubT_cons_none (h2 b), scanSubT_cons_none (h3 b)]
  rfl

theorem Emits.of_fire {m : List Char → Option (List Char × List Char)}
    (hsh : Shrinks m) {pat out : List Char}
    (h : ∀ b, m (pat ++ b) = some (out, b)) : Emits m pat out :=
  fun b => scanSubT_match hsh (h b)

/-- The whole-list identity from an `Emits` self-block. -/
theorem Emits.run {m : List Char → Option (List Char × List Char)}
    {a o : List Char} (h : Emits m a o) : scanSubT m a = o :=
  h.stop

/-- Trigger: every matcher whose pattern starts with `<` skips any character
other than `<`. -/
def trigLt (c : Char) : Bool := c == '<'

theorem trigLt_false_ne {c : Char} (h : trigLt c = false) : c ≠ '<' := by
  simpa [trigLt] using h

theorem trigLt_false_of_ne {c : Char} (h : c ≠ '<') : trigLt c = false := by
  simpa [trigLt] using h

theorem closeM_trig (tag : List Char) :
    ∀ c cs, trigLt c = false → closeM tag (c :: cs) = none :=
  fun _ _ h => closeM_none_not_lt (trigLt_false_ne h)

theorem replM_trig {ps repl : List Char} :
    ∀ c cs, trigLt c = false → replM ('<' :: ps) repl (c :: cs) = none := by
  intro c cs h
  apply replM_none_head
  have := trigLt_false_ne h
  simpa using (Ne.symm this)

theorem spanM_trig :
    ∀ c cs, trigLt c = false → spanM (c :: cs) = none :=
  fun _ _ h => spanM_none_not_lt (trigLt_false_ne h)

theorem replM_none_of_not_pref {pat repl x : List Char}
    (h : exPrefixB pat x = false) : replM pat repl x = none := by
  simp [replM, h]

/-- C2, counterexample: the claim says a `None` node yields the empty string,
but `str(None)` is `"None"`, which passes through the converter unchanged —
the result is not the empty string. -/
theorem c2_counterexample : simple_html_converter_node none ≠ "" := by decide

/-- C2 (amended): on a null/missing node (`None` passed as `text_node`)
`simple_html_converter` does not raise; it returns the four-character string
`"None"` — the `str` of `None` — rather than the empty string. -/
theorem c2_none_yields_str_none : simple_html_converter_node none = "None" := by
  decide

/-- C5, counterexample: the claim says the contact email never retains a
scheme prefix, but `replace("mailto:", "")` is case-sensitive: an href whose
scheme is spelled `MAILTO:` is stored unchanged, scheme prefix included. -/
theorem c5_counterexample :
    contact_email "MAILTO:rohan@example.org" = "MAILTO:rohan@example.org" ∧
      exPrefixB ['M', 'A', 'I', 'L', 'T', 'O', ':']
        (contact_email "MAILTO:rohan@example.org").data = true := by
  constructor
  · decide
  · decide

/-- C5 (amended): every occurrence of the exact lowercase substring
`mailto:` is deleted from the href — in particular a leading lowercase
`mailto:` prefix is stripped, the rest of the href being processed exactly
as if the prefix had not been there; scheme prefixes spelled in any other
case are retained. -/
theorem c5_amended_lowercase_prefix_stripped (r : String) :
    contact_email ("mailto:" ++ r) = contact_email r := by
  show (⟨scanSubT (replM ['m', 'a', 'i', 'l', 't', 'o', ':'] [])
      ("mailto:" ++ r).data⟩ : String) = _
  have hd : ("mailto:" ++ r).data = ['m', 'a', 'i', 'l', 't', 'o', ':'] ++ r.data := by
    simp [String.data_append]
  rw [hd]
  have hfire := replM_fire 'm' ['a', 'i', 'l', 't', 'o', ':'] [] r.data
  rw [scanSubT_match (replM_shrinks _ _) hfire]
  rfl

/-- C10: the `mailto:` removal is `str.replace`, which deletes every
occurrence anywhere in the href — here an occurrence in non-leading position
(and one in leading position) are both deleted. -/
theorem c10_interior_mailto_removed :
    contact_email "x@y.zmailto:w" = "x@y.zw" ∧
      contact_email "mailto:a@bmailto:c" = "a@bc" := by
  constructor
  · decide
  · decide

/-- C4, counterexample: the claim says no exception propagates out of
`create_pdf`, but `template.render(data)` (line 153) is not inside any
`try` block: a render failure escapes the top-level run. -/
theorem c4_counterexample :
    create_pdf ⟨.ok, true, .ok, .error "boom", .ok⟩ = .raised "boom" := by
  decide

/-- C4 (amended): an exception escapes `create_pdf` exactly when either the
open/parse step fails with something other than `FileNotFoundError` (only
that class is caught), or the pipeline reaches template rendering and the
render fails (the render call is outside every `try`).  All other stage
failures — missing source file, extraction failure, template load failure,
PDF generation failure — are caught and reported. -/
theorem c4_amended_raise_iff (e : RunEnv) :
    raisedB (create_pdf e) = true ↔
      ((∃ m, e.openRes = .otherError m) ∨
        (e.openRes = .ok ∧ e.scrapeOk = true ∧ e.templateRes = .ok ∧
          ∃ m, e.renderRes = .error m)) := by
  obtain ⟨o, s, t, r, p⟩ := e
  cases o <;> cases s <;> cases t <;> cases r <;> cases p <;>
    simp [create_pdf, raisedB]

/-- C4, witness: a concrete environment whose render step fails does raise. -/
theorem c4_witness :
    raisedB (create_pdf ⟨.ok, true, .ok, .error "render failed", .ok⟩) = true :=
  (c4_amended_raise_iff ⟨.ok, true, .ok, .error "render failed", .ok⟩).mpr
    (.inr ⟨rfl, rfl, rfl, "render failed", rfl⟩)

/-- C6: if extraction fails the run aborts with no PDF written, and the
backend write call `pdfkit.from_string` is reached only when the source was
opened, a complete record was extracted, the template loaded, and the HTML
was fully rendered. -/
theorem c6_pdf_only_after_full_pipeline (e : RunEnv) :
    (e.scrapeOk = false → pdfReachedB (create_pdf e) = false) ∧
      (pdfReachedB (create_pdf e) = true →
        e.openRes = .ok ∧ e.scrapeOk = true ∧ e.templateRes = .ok ∧
          e.renderRes = .ok) := by
  obtain ⟨o, s, t, r, p⟩ := e
  cases o <;> cases s <;> cases t <;> cases r <;> cases p <;>
    simp [create_pdf, pdfReachedB]

/-- C6, witness: in the all-success environment the write call is reached,
and the theorem then recovers that the render stage had succeeded. -/
theorem c6_witness :
    pdfReachedB (create_pdf ⟨.ok, true, .ok, .ok, .ok⟩) = true ∧
      RunEnv.renderRes ⟨.ok, true, .ok, .ok, .ok⟩ = .ok :=
  ⟨by decide,
    ((c6_pdf_only_after_full_pipeline ⟨.ok, true, .ok, .ok, .ok⟩).2 (by decide)).2.2.2⟩

theorem closeM_id_no_mark {tag l : List Char}
    (h : ciInfixB (closePat tag) l = false) : scanSubT (closeM tag) l = l := by
  apply scanSubT_id_sfx
  intro s hs
  have hp := ciInfixB_false_sfx h hs
  simp [closeM, hp]

theorem replM_id_no_mark {pat repl l : List Char}
    (h : exInfixB pat l = false) : scanSubT (replM pat repl) l = l := by
  apply scanSubT_id_sfx
  intro s hs
  have hp := exInfixB_false_sfx h hs
  simp [replM, hp]

theorem spanM_shape {s : List Char} (h : spanM s ≠ none) :
    ciPrefixB ['<', 's', 'p', 'a', 'n'] s = true ∨
      ciPrefixB ['<', '/', 's', 'p', 'a', 'n'] s = true := by
  unfold spanM at h
  cases s with
  | nil => simp at h
  | cons c cs =>
    by_cases hc : c = '<'
    · subst hc
      cases cs with
      | nil => simp [spanTail, ciPrefixB] at h
      | cons c2 r2 =>
        by_cases h2 : c2 = '/'
        · subst h2
          simp only [if_pos rfl] at h
          right
          have hsp : ciPrefixB ['s', 'p', 'a', 'n'] r2 = true := by
            by_contra hns
            simp [spanTail, Bool.eq_false_iff.mpr hns] at h
          simp [ciPrefixB, ciEq_refl, hsp]
        · simp only [if_pos rfl, if_neg h2] at h
          left
          have hsp : ciPrefixB ['s', 'p', 'a', 'n'] (c2 :: r2) = true := by
            by_contra hns
            simp [spanTail, Bool.eq_false_iff.mpr hns] at h
          simpa [ciPrefixB, ciEq_refl] using hsp
    · simp [hc] at h

theorem spanM_id_no_mark {l : List Char}
    (h1 : ciInfixB ['<', 's', 'p', 'a', 'n'] l = false)
    (h2 : ciInfixB ['<', '/', 's', 'p', 'a', 'n'] l = false) :
    scanSubT spanM l = l := by
  apply scanSubT_id_sfx
  intro s hs
  by_contra hne
  rcases spanM_shape hne with hp | hp
  · rw [ciInfixB_false_sfx h1 hs] at hp; cases hp
  · rw [ciInfixB_false_sfx h2 hs] at hp; cases hp

theorem styleM_id_no_mark {l : List Char}
    (h : ciInfixB ['s', 't', 'y', 'l', 'e', '=', '"'] l = false) :
    scanSubT styleM l = l := by
  apply scanSubT_id_sfx
  intro s hs
  have hp := ciInfixB_false_sfx h hs
  simp [styleM, hp]

theorem pstrip_convL (l : List Char) : pstrip (convL l) = convL l := by
  unfold convL
  exact pstrip_idem _

theorem data_mk (l : List Char) : (⟨l⟩ : String).data = l := rfl

theorem simple_html_converter_data (s : String) :
    (simple_html_converter s).data = convL s.data := data_mk _

/-- A list none of whose rewrite markers occur is a fixed point of the whole
conversion pipeline, provided it is also already stripped. -/
theorem convL_fixed {l : List Char}
    (h1 : ciInfixB ['<', 'p'] l = false)
    (h2 : ciInfixB (closePat ['p']) l = false)
    (h3 : ciInfixB ['<', 't', 'd'] l = false)
    (h4 : ciInfixB (closePat ['t', 'd']) l = false)
    (h5 : exInfixB ['<', 's', 't', 'r', 'o', 'n', 'g', '>'] l = false)
    (h6 : exInfixB ['<', '/', 's', 't', 'r', 'o', 'n', 'g', '>'] l = false)
    (h7 : exInfixB ['<', 'b', 'r', '>'] l = false)
    (h8 : ciInfixB ['<', 's', 'p', 'a', 'n'] l = false)
    (h9 : ciInfixB ['<', '/', 's', 'p', 'a', 'n'] l = false)
    (h10 : ciInfixB ['s', 't', 'y', 'l', 'e', '=', '"'] l = false)
    (hps : pstrip l = l) : convL l = l := by
  unfold convL
  rw [stripOpen_id_no_mark h1, closeM_id_no_mark h2, stripOpen_id_no_mark h3,
    closeM_id_no_mark h4, replM_id_no_mark h5, replM_id_no_mark h6,
    replM_id_no_mark h7, spanM_id_no_mark h8 h9, styleM_id_no_mark h10, hps]

/-- C1, counterexample: normalization is not idempotent.  On the input
`<sp<span>an>` the span-removal pass deletes the inner `<span>` and thereby
splices the surrounding text into a new `<span>` tag, which survives the
first pass; a second pass then deletes it, so the two results differ. -/
theorem c1_counterexample :
    simple_html_converter (simple_html_converter "<sp<span>an>") ≠
      simple_html_converter "<sp<span>an>" := by decide

/-- C1 (amended): re-normalizing is the identity whenever the first pass's
output no longer contains any of the rewritten markers — no `<p`/`<td`
opener, no `</p>`/`</td>` closer, no literal `<strong>`/`</strong>`/`<br>`,
no span tag opener and no `style="` (the tag patterns case-insensitively).
In general idempotence fails, because deleting a matched occurrence can
splice the surrounding text into a new occurrence. -/
theorem c1_amended_idempotent_on_marker_free_output (x : String)
    (h1 : ciInfixB ['<', 'p'] (simple_html_converter x).data = false)
    (h2 : ciInfixB (closePat ['p']) (simple_html_converter x).data = false)
    (h3 : ciInfixB ['<', 't', 'd'] (simple_html_converter x).data = false)
    (h4 : ciInfixB (closePat ['t', 'd']) (simple_html_converter x).data = false)
    (h5 : exInfixB ['<', 's', 't', 'r', 'o', 'n', 'g', '>'] (simple_html_converter x).data = false)
    (h6 : exInfixB ['<', '/', 's', 't', 'r', 'o', 'n', 'g', '>'] (simple_html_converter x).data = false)
    (h7 : exInfixB ['<', 'b', 'r', '>'] (simple_html_converter x).data = false)
    (h8 : ciInfixB ['<', 's', 'p', 'a', 'n'] (simple_html_converter x).data = false)
    (h9 : ciInfixB ['<', '/', 's', 'p', 'a', 'n'] (simple_html_converter x).data = false)
    (h10 : ciInfixB ['s', 't', 'y', 'l', 'e', '=', '"'] (simple_html_converter x).data = false) :
    simple_html_converter (simple_html_converter x) = simple_html_converter x := by
  have hdata : (simple_html_converter x).data = convL x.data :=
    simple_html_converter_data x
  rw [hdata] at h1 h2 h3 h4 h5 h6 h7 h8 h9 h10
  have hfix : convL (convL x.data) = convL x.data :=
    convL_fixed h1 h2 h3 h4 h5 h6 h7 h8 h9 h10 (pstrip_convL x.data)
  show (⟨convL ((simple_html_converter x).data)⟩ : String) = simple_html_converter x
  rw [hdata, hfix]
  rfl

set_option maxHeartbeats 2000000 in
/-- C1, witness: a realistic already-normalized output (bold rewritten,
break self-closed) is a fixed point. -/
theorem c1_witness :
    simple_html_converter
        (simple_html_converter "<p>Hi <strong>there</strong>!<br> Bye</p>") =
      simple_html_converter "<p>Hi <strong>there</strong>!<br> Bye</p>" :=
  c1_amended_idempotent_on_marker_free_output _ (by decide) (by decide) (by decide)
    (by decide) (by decide) (by decide) (by decide) (by decide) (by decide) (by decide)

theorem EmitsEnd.nil {m : List Char → Option (List Char × List Char)} :
    EmitsEnd m [] [] := scanSubT_nil m

theorem exPrefixB_false2 {a0 a1 c0 c1 : Char} {as r : List Char}
    (h : (a1 == c1) = false) : exPrefixB (a0 :: a1 :: as) (c0 :: c1 :: r) = false := by
  simp [exPrefixB, h]

theorem exPrefixB_false3 {a0 a1 a2 c0 c1 c2 : Char} {as r : List Char}
    (h : (a2 == c2) = false) :
    exPrefixB (a0 :: a1 :: a2 :: as) (c0 :: c1 :: c2 :: r) = false := by
  simp [exPrefixB, h]

theorem replM_none2 {a0 a1 c0 c1 : Char} {as repl r : List Char}
    (h : (a1 == c1) = false) : replM (a0 :: a1 :: as) repl (c0 :: c1 :: r) = none :=
  replM_none_of_not_pref (exPrefixB_false2 h)

theorem replM_none3 {a0 a1 a2 c0 c1 c2 : Char} {as repl r : List Char}
    (h : (a2 == c2) = false) :
    replM (a0 :: a1 :: a2 :: as) repl (c0 :: c1 :: c2 :: r) = none :=
  replM_none_of_not_pref (exPrefixB_false3 h)

theorem closeM_none_tag1 {t0 c : Char} {tag r : List Char}
    (h : ciEq t0 c = false) : closeM (t0 :: tag) ('<' :: '/' :: c :: r) = none := by
  have hp : ciPrefixB (closePat (t0 :: tag)) ('<' :: '/' :: c :: r) = false := by
    simp [closePat, ciPrefixB, h]
  simp [closeM, hp]

theorem stripOpen_id_head {tag r2 : List Char} {t0 c : Char}
    (h : ciEq t0 c = false) :
    stripOpen (t0 :: tag) ('<' :: c :: r2) = '<' :: c :: r2 := by
  have := stripOpen_id_mixed (u := []) (g := tag) (r := r2)
    (fun x hx => absurd hx (List.not_mem_nil x)) h
  exact this

theorem stripOpen_fire {g R : List Char} :
    stripOpen g ('<' :: (g ++ '>' :: R)) = R := by
  have hd : ('<' :: (g ++ '>' :: R)).dropWhile isSpace = '<' :: (g ++ '>' :: R) := by
    apply dropWhile_eq_self
    simp only [headNotP]
    decide
  unfold stripOpen
  rw [hd]
  have hp : ciPrefixB ('<' :: g) ('<' :: (g ++ '>' :: R)) = true :=
    ciPrefixB_append_self ('<' :: g) ('>' :: R)
  have hdrop : ('<' :: (g ++ '>' :: R)).drop (g.length + 1) = '>' :: R := by
    have h := List.drop_left ('<' :: g) ('>' :: R)
    simp only [List.length_cons] at h
    exact h
  have hop : openMatch g ('<' :: (g ++ '>' :: R)) = some R := by
    unfold openMatch
    rw [hp, if_pos rfl, hdrop]
    simp [scanToGtAll]
  rw [hop]

theorem not_mem_app {c : Char} {a b : List Char} (ha : c ∉ a) (hb : c ∉ b) :
    c ∉ a ++ b := by
  intro h
  rcases List.mem_append.mp h with h | h
  · exact ha h
  · exact hb h

theorem headNotP_append {p : Char → Bool} {u r : List Char} {c : Char}
    (hu : headNotP p u = true) (hc : p c = false) :
    headNotP p (u ++ c :: r) = true := by
  cases u with
  | nil => simp [headNotP, hc]
  | cons a as => simpa [headNotP] using hu

theorem headNotP_rev_append {p : Char → Bool} {u v w : List Char} {c : Char}
    (hv : headNotP p v.reverse = true) (hc : p c = false) :
    headNotP p (u ++ (w ++ c :: v)).reverse = true := by
  rw [List.reverse_append, List.reverse_append, List.reverse_cons]
  cases hvr : v.reverse with
  | nil => simp [headNotP, hc]
  | cons a as =>
    rw [hvr] at hv
    simp only [headNotP] at hv ⊢
    simpa using hv

/-- The full conversion pipeline on a `<td>u<br>v</td>` cell with clean,
edge-trimmed `u` and `v`: the wrapper is stripped, the break is self-closed,
nothing else changes. -/
theorem convL_td_br {u v : List Char}
    (hu : ∀ c ∈ u, c ≠ '<' ∧ c ≠ '"') (hv : ∀ c ∈ v, c ≠ '<' ∧ c ≠ '"')
    (hu2 : headNotP isSpace u = true) (hv2 : headNotP isSpace v.reverse = true) :
    convL ('<' :: 't' :: 'd' :: '>' ::
        (u ++ '<' :: 'b' :: 'r' :: '>' :: (v ++ ['<', '/', 't', 'd', '>']))) =
      u ++ '<' :: 'b' :: 'r' :: '/' :: '>' :: v := by
  have hut : ∀ c ∈ u, trigLt c = false := fun c hc => trigLt_false_of_ne (hu c hc).1
  have hvt : ∀ c ∈ v, trigLt c = false := fun c hc => trigLt_false_of_ne (hv c hc).1
  have e1 : stripOpen ['p'] ('<' :: 't' :: 'd' :: '>' ::
      (u ++ '<' :: 'b' :: 'r' :: '>' :: (v ++ ['<', '/', 't', 'd', '>']))) =
      '<' :: 't' :: 'd' :: '>' ::
        (u ++ '<' :: 'b' :: 'r' :: '>' :: (v ++ ['<', '/', 't', 'd', '>'])) :=
    stripOpen_id_head (by decide)
  have e2 : scanSubT (closeM ['p']) ('<' :: 't' :: 'd' :: '>' ::
      (u ++ '<' :: 'b' :: 'r' :: '>' :: (v ++ ['<', '/', 't', 'd', '>']))) =
      '<' :: 't' :: 'd' :: '>' ::
        (u ++ '<' :: 'b' :: 'r' :: '>' :: (v ++ ['<', '/', 't', 'd', '>'])) := by
    have E0 : EmitsEnd (closeM ['p']) ['d', '>'] ['d', '>'] :=
      (Emits.of_skip (closeM_trig ['p']) (by decide)).stop
    have E1 := (Emits.of_step3 (m := closeM ['p'])
      (fun r => closeM_none_tag1 (by decide))
      (fun r => closeM_trig ['p'] '/' ('t' :: r) (by decide))
      (fun r => closeM_trig ['p'] 't' r (by decide))).seq_end E0
    have E2 := (Emits.of_skip (closeM_trig ['p']) hvt).seq_end E1
    have E3 := (Emits.of_skip (closeM_trig ['p'])
      (by decide : ∀ c ∈ ['r', '>'], trigLt c = false)).seq_end E2
    have E4 := (Emits.of_step2 (m := closeM ['p'])
      (fun r => closeM_none_second (by decide))
      (fun r => closeM_trig ['p'] 'b' r (by decide))).seq_end E3
    have E5 := (Emits.of_skip (closeM_trig ['p']) hut).seq_end E4
    have E6 := (Emits.of_skip (closeM_trig ['p'])
      (by decide : ∀ c ∈ ['d', '>'], trigLt c = false)).seq_end E5
    have E7 := (Emits.of_step2 (m := closeM ['p'])
      (fun r => closeM_none_second (by decide))
      (fun r => closeM_trig ['p'] 't' r (by decide))).seq_end E6
    exact E7
  have e3 : stripOpen ['t', 'd'] ('<' :: 't' :: 'd' :: '>' ::
      (u ++ '<' :: 'b' :: 'r' :: '>' :: (v ++ ['<', '/', 't', 'd', '>']))) =
      u ++ '<' :: 'b' :: 'r' :: '>' :: (v ++ ['<', '/', 't', 'd', '>']) :=
    stripOpen_fire (g := ['t', 'd'])
  have e4 : scanSubT (closeM ['t', 'd'])
      (u ++ '<' :: 'b' :: 'r' :: '>' :: (v ++ ['<', '/', 't', 'd', '>'])) =
      u ++ '<' :: 'b' :: 'r' :: '>' :: v := by
    have E0 : EmitsEnd (closeM ['t', 'd']) ['<', '/', 't', 'd', '>'] [] := by
      show scanSubT (closeM ['t', 'd']) ['<', '/', 't', 'd', '>'] = []
      decide
    have E1 := (Emits.of_skip (closeM_trig ['t', 'd']) hvt).seq_end E0
    have E2 := (Emits.of_skip (closeM_trig ['t', 'd'])
      (by decide : ∀ c ∈ ['r', '>'], trigLt c = false)).seq_end E1
    have E3 := (Emits.of_step2 (m := closeM ['t', 'd'])
      (fun r => closeM_none_second (by decide))
      (fun r => closeM_trig ['t', 'd'] 'b' r (by decide))).seq_end E2
    have E4' : scanSubT (closeM ['t', 'd'])
        (u ++ (['<', 'b'] ++ (['r', '>'] ++ (v ++ ['<', '/', 't', 'd', '>'])))) =
        u ++ (['<', 'b'] ++ (['r', '>'] ++ (v ++ []))) :=
      (Emits.of_skip (closeM_trig ['t', 'd']) hut).seq_end E3
    exact E4'.trans (by simp)
  have e5 : scanSubT (replM ['<', 's', 't', 'r', 'o', 'n', 'g', '>'] ['<', 'b', '>'])
      (u ++ '<' :: 'b' :: 'r' :: '>' :: v) = u ++ '<' :: 'b' :: 'r' :: '>' :: v := by
    have E0 : EmitsEnd (replM ['<', 's', 't', 'r', 'o', 'n', 'g', '>'] ['<', 'b', '>']) v v :=
      (Emits.of_skip replM_trig hvt).stop
    have E1 := (Emits.of_skip (m := replM ['<', 's', 't', 'r', 'o', 'n', 'g', '>'] ['<', 'b', '>'])
      replM_trig (by decide : ∀ c ∈ ['r', '>'], trigLt c = false)).seq_end E0
    have E2 := (Emits.of_step2 (x := '<') (y := 'b')
      (fun r => replM_none2 (by decide))
      (fun r => replM_trig 'b' r (by decide))).seq_end E1
    have E3 := (Emits.of_skip replM_trig hut).seq_end E2
    exact E3
  have e6 : scanSubT (replM ['<', '/', 's', 't', 'r', 'o', 'n', 'g', '>'] ['<', '/', 'b', '>'])
      (u ++ '<' :: 'b' :: 'r' :: '>' :: v) = u ++ '<' :: 'b' :: 'r' :: '>' :: v := by
    have E0 : EmitsEnd (replM ['<', '/', 's', 't', 'r', 'o', 'n', 'g', '>'] ['<', '/', 'b', '>']) v v :=
      (Emits.of_skip replM_trig hvt).stop
    have E1 := (Emits.of_skip (m := replM ['<', '/', 's', 't', 'r', 'o', 'n', 'g', '>'] ['<', '/', 'b', '>'])
      replM_trig (by decide : ∀ c ∈ ['r', '>'], trigLt c = false)).seq_end E0
    have E2 := (Emits.of_step2 (x := '<') (y := 'b')
      (fun r => replM_none2 (by decide))
      (fun r => replM_trig 'b' r (by decide))).seq_end E1
    have E3 := (Emits.of_skip replM_trig hut).seq_end E2
    exact E3
  have e7 : scanSubT (replM ['<', 'b', 'r', '>'] ['<', 'b', 'r', '/', '>'])
      (u ++ '<' :: 'b' :: 'r' :: '>' :: v) = u ++ '<' :: 'b' :: 'r' :: '/' :: '>' :: v := by
    have E0 : EmitsEnd (replM ['<', 'b', 'r', '>'] ['<', 'b', 'r', '/', '>']) v v :=
      (Emits.of_skip replM_trig hvt).stop
    have E1 := (Emits.of_fire (replM_shrinks _ _)
      (fun b => replM_fire '<' ['b', 'r', '>'] ['<', 'b', 'r', '/', '>'] b)).seq_end E0
    have E2 := (Emits.of_skip replM_trig hut).seq_end E1
    exact E2
  have e8 : scanSubT spanM (u ++ '<' :: 'b' :: 'r' :: '/' :: '>' :: v) =
      u ++ '<' :: 'b' :: 'r' :: '/' :: '>' :: v := by
    have E0 : EmitsEnd spanM v v := (Emits.of_skip spanM_trig hvt).stop
    have E1 := (Emits.of_skip spanM_trig
      (by decide : ∀ c ∈ ['r', '/', '>'], trigLt c = false)).seq_end E0
    have E2 := (Emits.of_step2 (x := '<') (y := 'b')
      (fun r => spanM_none_open_second (by decide) (by decide))
      (fun r => spanM_trig 'b' r (by decide))).seq_end E1
    have E3 := (Emits.of_skip spanM_trig hut).seq_end E2
    exact E3
  have e9 : scanSubT styleM (u ++ '<' :: 'b' :: 'r' :: '/' :: '>' :: v) =
      u ++ '<' :: 'b' :: 'r' :: '/' :: '>' :: v := by
    apply scanSubT_id_mem (fun x => styleM_need)
    exact not_mem_app (fun h => (hu _ h).2 rfl)
      (not_mem_app (a := ['<', 'b', 'r', '/', '>']) (by decide)
        (fun h => (hv _ h).2 rfl))
  have e10 : pstrip (u ++ '<' :: 'b' :: 'r' :: '/' :: '>' :: v) =
      u ++ '<' :: 'b' :: 'r' :: '/' :: '>' :: v := by
    apply pstrip_eq_self
    · exact headNotP_append hu2 (by decide)
    · exact headNotP_rev_append (u := u) (w := ['<', 'b', 'r', '/']) (c := '>')
        hv2 (by decide)
  unfold convL
  rw [e1, e2, e3, e4, e5, e6, e7, e8, e9, e10]

theorem mk_data_eq {l : List Char} {s : String} (h : s.data = l) :
    (⟨l⟩ : String) = s := by
  cases s with
  | mk d => exact congrArg String.mk h.symm

/-- The field-specific post-step `replace("<br/>", repl)` on a normalized
`u<br/>v` with `<`-free `u` and `v`. -/
theorem postStep_br {u v repl : List Char}
    (hut : ∀ c ∈ u, trigLt c = false) (hvt : ∀ c ∈ v, trigLt c = false) :
    scanSubT (replM ['<', 'b', 'r', '/', '>'] repl)
      (u ++ '<' :: 'b' :: 'r' :: '/' :: '>' :: v) = u ++ (repl ++ v) := by
  have E0 : EmitsEnd (replM ['<', 'b', 'r', '/', '>'] repl) v v :=
    (Emits.of_skip replM_trig hvt).stop
  have E1 := (Emits.of_fire (replM_shrinks _ _)
    (fun b => replM_fire '<' ['b', 'r', '/', '>'] repl b)).seq_end E0
  have E2 := (Emits.of_skip replM_trig hut).seq_end E1
  exact E2

/-- C8: on an experience cell `<td>u<br>v</td>` (with `u`, `v` free of tag
and attribute characters and not beginning/ending in whitespace), the
employer field applies the post-step after normalization, replacing the
normalized `<br/>` marker with a comma-space join, and the duration field
replaces it with a space-hyphen-space join. -/
theorem c8_experience_field_join (su sv : String)
    (hu : ∀ c ∈ su.data, c ≠ '<' ∧ c ≠ '"')
    (hv : ∀ c ∈ sv.data, c ≠ '<' ∧ c ≠ '"')
    (hu2 : headNotP isSpace su.data = true)
    (hv2 : headNotP isSpace sv.data.reverse = true) :
    experience_employer ("<td>" ++ su ++ "<br>" ++ sv ++ "</td>") =
        su ++ ", " ++ sv ∧
      experience_duration ("<td>" ++ su ++ "<br>" ++ sv ++ "</td>") =
        su ++ " - " ++ sv := by
  have hut : ∀ c ∈ su.data, trigLt c = false :=
    fun c hc => trigLt_false_of_ne (hu c hc).1
  have hvt : ∀ c ∈ sv.data, trigLt c = false :=
    fun c hc => trigLt_false_of_ne (hv c hc).1
  have l1 : ("<td>" : String).data = ['<', 't', 'd', '>'] := rfl
  have l2 : ("<br>" : String).data = ['<', 'b', 'r', '>'] := rfl
  have l3 : ("</td>" : String).data = ['<', '/', 't', 'd', '>'] := rfl
  have hdata : ("<td>" ++ su ++ "<br>" ++ sv ++ "</td>").data =
      '<' :: 't' :: 'd' :: '>' ::
        (su.data ++ '<' :: 'b' :: 'r' :: '>' :: (sv.data ++ ['<', '/', 't', 'd', '>'])) := by
    rw [String.data_append, String.data_append, String.data_append,
      String.data_append, l1, l2, l3]
    simp
  have hconv : (simple_html_converter ("<td>" ++ su ++ "<br>" ++ sv ++ "</td>")).data =
      su.data ++ '<' :: 'b' :: 'r' :: '/' :: '>' :: sv.data := by
    rw [simple_html_converter_data, hdata]
    exact convL_td_br hu hv hu2 hv2
  constructor
  · show (⟨scanSubT (replM ['<', 'b', 'r', '/', '>'] [',', ' '])
        (simple_html_converter ("<td>" ++ su ++ "<br>" ++ sv ++ "</td>")).data⟩ : String) =
      su ++ ", " ++ sv
    rw [hconv, postStep_br hut hvt]
    apply mk_data_eq
    rw [String.data_append, String.data_append,
      (rfl : (", " : String).data = [',', ' '])]
    simp
  · show (⟨scanSubT (replM ['<', 'b', 'r', '/', '>'] [' ', '-', ' '])
        (simple_html_converter ("<td>" ++ su ++ "<br>" ++ sv ++ "</td>")).data⟩ : String) =
      su ++ " - " ++ sv
    rw [hconv, postStep_br hut hvt]
    apply mk_data_eq
    rw [String.data_append, String.data_append,
      (rfl : (" - " : String).data = [' ', '-', ' '])]
    simp

/-- C8, witness: a concrete two-line cell is collapsed with the two
field-specific separators. -/
theorem c8_witness :
    experience_employer ("<td>" ++ "Acme" ++ "<br>" ++ "Lab" ++ "</td>") =
        "Acme" ++ ", " ++ "Lab" ∧
      experience_duration ("<td>" ++ "Acme" ++ "<br>" ++ "Lab" ++ "</td>") =
        "Acme" ++ " - " ++ "Lab" :=
  c8_experience_field_join "Acme" "Lab" (by decide) (by decide) (by decide) (by decide)

theorem headNotP_rev_tail {p : Char → Bool} {A z : List Char} {c : Char}
    (hz : headNotP p z.reverse = true) (hc : p c = false) :
    headNotP p (A ++ c :: z).reverse = true := by
  rw [List.reverse_append, List.reverse_cons]
  cases hzr : z.reverse with
  | nil => simp [headNotP, hc]
  | cons a as =>
    rw [hzr] at hz
    simp only [headNotP] at hz ⊢
    simpa using hz

/-- The full conversion pipeline on `u<strong>v<br>w</strong>z` with clean,
edge-trimmed segments: the strong tags are rewritten to `b` tags, the break
is self-closed, nothing else changes. -/
theorem convL_strong_br {u v w z : List Char}
    (hu : ∀ c ∈ u, c ≠ '<' ∧ c ≠ '"') (hv : ∀ c ∈ v, c ≠ '<' ∧ c ≠ '"')
    (hw : ∀ c ∈ w, c ≠ '<' ∧ c ≠ '"') (hz : ∀ c ∈ z, c ≠ '<' ∧ c ≠ '"')
    (hu2 : headNotP isSpace u = true) (hz2 : headNotP isSpace z.reverse = true) :
    convL (u ++ '<' :: 's' :: 't' :: 'r' :: 'o' :: 'n' :: 'g' :: '>' ::
        (v ++ '<' :: 'b' :: 'r' :: '>' ::
          (w ++ '<' :: '/' :: 's' :: 't' :: 'r' :: 'o' :: 'n' :: 'g' :: '>' :: z))) =
      u ++ '<' :: 'b' :: '>' ::
        (v ++ '<' :: 'b' :: 'r' :: '/' :: '>' :: (w ++ '<' :: '/' :: 'b' :: '>' :: z)) := by
  have hut : ∀ c ∈ u, trigLt c = false := fun c hc => trigLt_false_of_ne (hu c hc).1
  have hvt : ∀ c ∈ v, trigLt c = false := fun c hc => trigLt_false_of_ne (hv c hc).1
  have hwt : ∀ c ∈ w, trigLt c = false := fun c hc => trigLt_false_of_ne (hw c hc).1
  have hzt : ∀ c ∈ z, trigLt c = false := fun c hc => trigLt_false_of_ne (hz c hc).1
  have e1 : stripOpen ['p'] (u ++ '<' :: 's' :: 't' :: 'r' :: 'o' :: 'n' :: 'g' :: '>' ::
      (v ++ '<' :: 'b' :: 'r' :: '>' ::
        (w ++ '<' :: '/' :: 's' :: 't' :: 'r' :: 'o' :: 'n' :: 'g' :: '>' :: z))) =
      u ++ '<' :: 's' :: 't' :: 'r' :: 'o' :: 'n' :: 'g' :: '>' ::
        (v ++ '<' :: 'b' :: 'r' :: '>' ::
          (w ++ '<' :: '/' :: 's' :: 't' :: 'r' :: 'o' :: 'n' :: 'g' :: '>' :: z)) :=
    stripOpen_id_mixed (fun c hc => (hu c hc).1) (by decide)
  have e2 : scanSubT (closeM ['p'])
      (u ++ '<' :: 's' :: 't' :: 'r' :: 'o' :: 'n' :: 'g' :: '>' ::
        (v ++ '<' :: 'b' :: 'r' :: '>' ::
          (w ++ '<' :: '/' :: 's' :: 't' :: 'r' :: 'o' :: 'n' :: 'g' :: '>' :: z))) =
      u ++ '<' :: 's' :: 't' :: 'r' :: 'o' :: 'n' :: 'g' :: '>' ::
        (v ++ '<' :: 'b' :: 'r' :: '>' ::
          (w ++ '<' :: '/' :: 's' :: 't' :: 'r' :: 'o' :: 'n' :: 'g' :: '>' :: z)) := by
    have E0 : EmitsEnd (closeM ['p']) z z := (Emits.of_skip (closeM_trig ['p']) hzt).stop
    have E1 := (Emits.of_skip (closeM_trig ['p'])
      (by decide : ∀ c ∈ ['t', 'r', 'o', 'n', 'g', '>'], trigLt c = false)).seq_end E0
    have E2 := (Emits.of_step3 (m := closeM ['p']) (x := '<') (y := '/') (z := 's')
      (fun r => closeM_none_tag1 (by decide))
      (fun r => closeM_trig ['p'] '/' ('s' :: r) (by decide))
      (fun r => closeM_trig ['p'] 's' r (by decide))).seq_end E1
    have E3 := (Emits.of_skip (closeM_trig ['p']) hwt).seq_end E2
    have E4 := (Emits.of_skip (closeM_trig ['p'])
      (by decide : ∀ c ∈ ['r', '>'], trigLt c = false)).seq_end E3
    have E5 := (Emits.of_step2 (m := closeM ['p']) (x := '<') (y := 'b')
      (fun r => closeM_none_second (by decide))
      (fun r => closeM_trig ['p'] 'b' r (by decide))).seq_end E4
    have E6 := (Emits.of_skip (closeM_trig ['p']) hvt).seq_end E5
    have E7 := (Emits.of_skip (closeM_trig ['p'])
      (by decide : ∀ c ∈ ['t', 'r', 'o', 'n', 'g', '>'], trigLt c = false)).seq_end E6
    have E8 := (Emits.of_step2 (m := closeM ['p']) (x := '<') (y := 's')
      (fun r => closeM_none_second (by decide))
      (fun r => closeM_trig ['p'] 's' r (by decide))).seq_end E7
    have E9 := (Emits.of_skip (closeM_trig ['p']) hut).seq_end E8
    exact E9
  have e3 : stripOpen ['t', 'd']
      (u ++ '<' :: 's' :: 't' :: 'r' :: 'o' :: 'n' :: 'g' :: '>' ::
        (v ++ '<' :: 'b' :: 'r' :: '>' ::
          (w ++ '<' :: '/' :: 's' :: 't' :: 'r' :: 'o' :: 'n' :: 'g' :: '>' :: z))) =
      u ++ '<' :: 's' :: 't' :: 'r' :: 'o' :: 'n' :: 'g' :: '>' ::
        (v ++ '<' :: 'b' :: 'r' :: '>' ::
          (w ++ '<' :: '/' :: 's' :: 't' :: 'r' :: 'o' :: 'n' :: 'g' :: '>' :: z)) :=
    stripOpen_id_mixed (fun c hc => (hu c hc).1) (by decide)
  have e4 : scanSubT (closeM ['t', 'd'])
      (u ++ '<' :: 's' :: 't' :: 'r' :: 'o' :: 'n' :: 'g' :: '>' ::
        (v ++ '<' :: 'b' :: 'r' :: '>' ::
          (w ++ '<' :: '/' :: 's' :: 't' :: 'r' :: 'o' :: 'n' :: 'g' :: '>' :: z))) =
      u ++ '<' :: 's' :: 't' :: 'r' :: 'o' :: 'n' :: 'g' :: '>' ::
        (v ++ '<' :: 'b' :: 'r' :: '>' ::
          (w ++ '<' :: '/' :: 's' :: 't' :: 'r' :: 'o' :: 'n' :: 'g' :: '>' :: z)) := by
    have E0 : EmitsEnd (closeM ['t', 'd']) z z :=
      (Emits.of_skip (closeM_trig ['t', 'd']) hzt).stop
    have E1 := (Emits.of_skip (closeM_trig ['t', 'd'])
      (by decide : ∀ c ∈ ['t', 'r', 'o', 'n', 'g', '>'], trigLt c = false)).seq_end E0
    have E2 := (Emits.of_step3 (m := closeM ['t', 'd']) (x := '<') (y := '/') (z := 's')
      (fun r => closeM_none_tag1 (by decide))
      (fun r => closeM_trig ['t', 'd'] '/' ('s' :: r) (by decide))
      (fun r => closeM_trig ['t', 'd'] 's' r (by decide))).seq_end E1
    have E3 := (Emits.of_skip (closeM_trig ['t', 'd']) hwt).seq_end E2
    have E4 := (Emits.of_skip (closeM_trig ['t', 'd'])
      (by decide : ∀ c ∈ ['r', '>'], trigLt c = false)).seq_end E3
    have E5 := (Emits.of_step2 (m := closeM ['t', 'd']) (x := '<') (y := 'b')
      (fun r => closeM_none_second (by decide))
      (fun r => closeM_trig ['t', 'd'] 'b' r (by decide))).seq_end E4
    have E6 := (Emits.of_skip (closeM_trig ['t', 'd']) hvt).seq_end E5
    have E7 := (Emits.of_skip (closeM_trig ['t', 'd'])
      (by decide : ∀ c ∈ ['t', 'r', 'o', 'n', 'g', '>'], trigLt c = false)).seq_end E6
    have E8 := (Emits.of_step2 (m := closeM ['t', 'd']) (x := '<') (y := 's')
      (fun r => closeM_none_second (by decide))
      (fun r => closeM_trig ['t', 'd'] 's' r (by decide))).seq_end E7
    have E9 := (Emits.of_skip (closeM_trig ['t', 'd']) hut).seq_end E8
    exact E9
  have e5 : scanSubT (replM ['<', 's', 't', 'r', 'o', 'n', 'g', '>'] ['<', 'b', '>'])
      (u ++ '<' :: 's' :: 't' :: 'r' :: 'o' :: 'n' :: 'g' :: '>' ::
        (v ++ '<' :: 'b' :: 'r' :: '>' ::
          (w ++ '<' :: '/' :: 's' :: 't' :: 'r' :: 'o' :: 'n' :: 'g' :: '>' :: z))) =
      u ++ '<' :: 'b' :: '>' ::
        (v ++ '<' :: 'b' :: 'r' :: '>' ::
          (w ++ '<' :: '/' :: 's' :: 't' :: 'r' :: 'o' :: 'n' :: 'g' :: '>' :: z)) := by
    have E0 : EmitsEnd (replM ['<', 's', 't', 'r', 'o', 'n', 'g', '>'] ['<', 'b', '>']) z z :=
      (Emits.of_skip replM_trig hzt).stop
    have E1 := (Emits.of_skip
      (m := replM ['<', 's', 't', 'r', 'o', 'n', 'g', '>'] ['<', 'b', '>']) replM_trig
      (by decide : ∀ c ∈ ['s', 't', 'r', 'o', 'n', 'g', '>'], trigLt c = false)).seq_end E0
    have E2 := (Emits.of_step2 (x := '<') (y := '/')
      (fun r => replM_none2 (by decide))
      (fun r => replM_trig '/' r (by decide))).seq_end E1
    have E3 := (Emits.of_skip replM_trig hwt).seq_end E2
    have E4 := (Emits.of_skip
      (m := replM ['<', 's', 't', 'r', 'o', 'n', 'g', '>'] ['<', 'b', '>']) replM_trig
      (by decide : ∀ c ∈ ['r', '>'], trigLt c = false)).seq_end E3
    have E5 := (Emits.of_step2 (x := '<') (y := 'b')
      (fun r => replM_none2 (by decide))
      (fun r => replM_trig 'b' r (by decide))).seq_end E4
    have E6 := (Emits.of_skip replM_trig hvt).seq_end E5
    have E7 := (Emits.of_fire (replM_shrinks _ _)
      (fun b => replM_fire '<' ['s', 't', 'r', 'o', 'n', 'g', '>'] ['<', 'b', '>'] b)).seq_end E6
    have E8 := (Emits.of_skip replM_trig hut).seq_end E7
    exact E8
  have e6 : scanSubT (replM ['<', '/', 's', 't', 'r', 'o', 'n', 'g', '>'] ['<', '/', 'b', '>'])
      (u ++ '<' :: 'b' :: '>' ::
        (v ++ '<' :: 'b' :: 'r' :: '>' ::
          (w ++ '<' :: '/' :: 's' :: 't' :: 'r' :: 'o' :: 'n' :: 'g' :: '>' :: z))) =
      u ++ '<' :: 'b' :: '>' ::
        (v ++ '<' :: 'b' :: 'r' :: '>' :: (w ++ '<' :: '/' :: 'b' :: '>' :: z)) := by
    have E0 : EmitsEnd (replM ['<', '/', 's', 't', 'r', 'o', 'n', 'g', '>'] ['<', '/', 'b', '>']) z z :=
      (Emits.of_skip replM_trig hzt).stop
    have E1 := (Emits.of_fire (replM_shrinks _ _)
      (fun b => replM_fire '<' ['/', 's', 't', 'r', 'o', 'n', 'g', '>'] ['<', '/', 'b', '>'] b)).seq_end E0
    have E2 := (Emits.of_skip replM_trig hwt).seq_end E1
    have E3 := (Emits.of_skip
      (m := replM ['<', '/', 's', 't', 'r', 'o', 'n', 'g', '>'] ['<', '/', 'b', '>']) replM_trig
      (by decide : ∀ c ∈ ['r', '>'], trigLt c = false)).seq_end E2
    have E4 := (Emits.of_step2 (x := '<') (y := 'b')
      (fun r => replM_none2 (by decide))
      (fun r => replM_trig 'b' r (by decide))).seq_end E3
    have E5 := (Emits.of_skip replM_trig hvt).seq_end E4
    have E6 := (Emits.of_skip
      (m := replM ['<', '/', 's', 't', 'r', 'o', 'n', 'g', '>'] ['<', '/', 'b', '>']) replM_trig
      (by decide : ∀ c ∈ ['>'], trigLt c = false)).seq_end E5
    have E7 := (Emits.of_step2 (x := '<') (y := 'b')
      (fun r => replM_none2 (by decide))
      (fun r => replM_trig 'b' r (by decide))).seq_end E6
    have E8 := (Emits.of_skip replM_trig hut).seq_end E7
    exact E8
  have e7 : scanSubT (replM ['<', 'b', 'r', '>'] ['<', 'b', 'r', '/', '>'])
      (u ++ '<' :: 'b' :: '>' ::
        (v ++ '<' :: 'b' :: 'r' :: '>' :: (w ++ '<' :: '/' :: 'b' :: '>' :: z))) =
      u ++ '<' :: 'b' :: '>' ::
        (v ++ '<' :: 'b' :: 'r' :: '/' :: '>' :: (w ++ '<' :: '/' :: 'b' :: '>' :: z)) := by
    have E0 : EmitsEnd (replM ['<', 'b', 'r', '>'] ['<', 'b', 'r', '/', '>']) z z :=
      (Emits.of_skip replM_trig hzt).stop
    have E1 := (Emits.of_skip
      (m := replM ['<', 'b', 'r', '>'] ['<', 'b', 'r', '/', '>']) replM_trig
      (by decide : ∀ c ∈ ['b', '>'], trigLt c = false)).seq_end E0
    have E2 := (Emits.of_step2 (x := '<') (y := '/')
      (fun r => replM_none2 (by decide))
      (fun r => replM_trig '/' r (by decide))).seq_end E1
    have E3 := (Emits.of_skip replM_trig hwt).seq_end E2
    have E4 := (Emits.of_fire (replM_shrinks _ _)
      (fun b => replM_fire '<' ['b', 'r', '>'] ['<', 'b', 'r', '/', '>'] b)).seq_end E3
    have E5 := (Emits.of_skip replM_trig hvt).seq_end E4
    have E6 := (Emits.of_step3 (x := '<') (y := 'b') (z := '>')
      (fun r => replM_none3 (by decide))
      (fun r => replM_trig 'b' ('>' :: r) (by decide))
      (fun r => replM_trig '>' r (by decide))).seq_end E5
    have E7 := (Emits.of_skip replM_trig hut).seq_end E6
    exact E7
  have e8 : scanSubT spanM
      (u ++ '<' :: 'b' :: '>' ::
        (v ++ '<' :: 'b' :: 'r' :: '/' :: '>' :: (w ++ '<' :: '/' :: 'b' :: '>' :: z))) =
      u ++ '<' :: 'b' :: '>' ::
        (v ++ '<' :: 'b' :: 'r' :: '/' :: '>' :: (w ++ '<' :: '/' :: 'b' :: '>' :: z)) := by
    have E0 : EmitsEnd spanM z z := (Emits.of_skip spanM_trig hzt).stop
    have E1 := (Emits.of_skip spanM_trig
      (by decide : ∀ c ∈ ['>'], trigLt c = false)).seq_end E0
    have E2 := (Emits.of_step3 (x := '<') (y := '/') (z := 'b')
      (fun r => spanM_none_close_second (by decide))
      (fun r => spanM_trig '/' ('b' :: r) (by decide))
      (fun r => spanM_trig 'b' r (by decide))).seq_end E1
    have E3 := (Emits.of_skip spanM_trig hwt).seq_end E2
    have E4 := (Emits.of_skip spanM_trig
      (by decide : ∀ c ∈ ['r', '/', '>'], trigLt c = false)).seq_end E3
    have E5 := (Emits.of_step2 (x := '<') (y := 'b')
      (fun r => spanM_none_open_second (by decide) (by decide))
      (fun r => spanM_trig 'b' r (by decide))).seq_end E4
    have E6 := (Emits.of_skip spanM_trig hvt).seq_end E5
    have E7 := (Emits.of_skip spanM_trig
      (by decide : ∀ c ∈ ['>'], trigLt c = false)).seq_end E6
    have E8 := (Emits.of_step2 (x := '<') (y := 'b')
      (fun r => spanM_none_open_second (by decide) (by decide))
      (fun r => spanM_trig 'b' r (by decide))).seq_end E7
    have E9 := (Emits.of_skip spanM_trig hut).seq_end E8
    exact E9
  have e9 : scanSubT styleM
      (u ++ '<' :: 'b' :: '>' ::
        (v ++ '<' :: 'b' :: 'r' :: '/' :: '>' :: (w ++ '<' :: '/' :: 'b' :: '>' :: z))) =
      u ++ '<' :: 'b' :: '>' ::
        (v ++ '<' :: 'b' :: 'r' :: '/' :: '>' :: (w ++ '<' :: '/' :: 'b' :: '>' :: z)) := by
    apply scanSubT_id_mem (fun x => styleM_need)
    exact not_mem_app (fun h => (hu _ h).2 rfl)
      (not_mem_app (a := ['<', 'b', '>']) (by decide)
        (not_mem_app (fun h => (hv _ h).2 rfl)
          (not_mem_app (a := ['<', 'b', 'r', '/', '>']) (by decide)
            (not_mem_app (fun h => (hw _ h).2 rfl)
              (not_mem_app (a := ['<', '/', 'b', '>']) (by decide)
                (fun h => (hz _ h).2 rfl))))))
  have e10 : pstrip
      (u ++ '<' :: 'b' :: '>' ::
        (v ++ '<' :: 'b' :: 'r' :: '/' :: '>' :: (w ++ '<' :: '/' :: 'b' :: '>' :: z))) =
      u ++ '<' :: 'b' :: '>' ::
        (v ++ '<' :: 'b' :: 'r' :: '/' :: '>' :: (w ++ '<' :: '/' :: 'b' :: '>' :: z)) := by
    apply pstrip_eq_self
    · exact headNotP_append hu2 (by decide)
    · have hshape :
          u ++ '<' :: 'b' :: '>' ::
            (v ++ '<' :: 'b' :: 'r' :: '/' :: '>' :: (w ++ '<' :: '/' :: 'b' :: '>' :: z)) =
          (u ++ '<' :: 'b' :: '>' ::
            (v ++ '<' :: 'b' :: 'r' :: '/' :: '>' :: (w ++ ['<', '/', 'b']))) ++ '>' :: z := by
        simp
      rw [hshape]
      exact headNotP_rev_tail hz2 (by decide)
  unfold convL
  rw [e1, e2, e3, e4, e5, e6, e7, e8, e9, e10]

/-- C7, counterexample: a strong element carrying an attribute is not
rewritten — only the literal `<strong>` text is replaced.  On
`<strong style="x">hi</strong>` the closing tag becomes `</b>` but the
opening tag survives (as `<strong >` once the style attribute is stripped),
so the claim that both tags of every strong element are rewritten fails. -/
theorem c7_counterexample :
    simple_html_converter "<strong style=\"x\">hi</strong>" = "<strong >hi</b>" ∧
      ciInfixB ['<', 's', 't', 'r', 'o', 'n', 'g']
        (simple_html_converter "<strong style=\"x\">hi</strong>").data = true := by
  constructor
  · decide
  · decide

/-- C7 (amended): the rewrites are literal text replacements.  For every
fragment `u<strong>v<br>w</strong>z` whose segments are free of tag and
attribute characters and whose ends are not whitespace, the converter
rewrites the exact `<strong>` and `</strong>` tags to `<b>` and `</b>` and
the exact void `<br>` to its self-closed form `<br/>`; a strong tag spelled
with attributes or different casing is not rewritten. -/
theorem c7_amended_literal_tag_rewrites (su sv sw sz : String)
    (hu : ∀ c ∈ su.data, c ≠ '<' ∧ c ≠ '"')
    (hv : ∀ c ∈ sv.data, c ≠ '<' ∧ c ≠ '"')
    (hw : ∀ c ∈ sw.data, c ≠ '<' ∧ c ≠ '"')
    (hz : ∀ c ∈ sz.data, c ≠ '<' ∧ c ≠ '"')
    (hu2 : headNotP isSpace su.data = true)
    (hz2 : headNotP isSpace sz.data.reverse = true) :
    simple_html_converter (su ++ "<strong>" ++ sv ++ "<br>" ++ sw ++ "</strong>" ++ sz) =
      su ++ "<b>" ++ sv ++ "<br/>" ++ sw ++ "</b>" ++ sz := by
  have hdata : (su ++ "<strong>" ++ sv ++ "<br>" ++ sw ++ "</strong>" ++ sz).data =
      su.data ++ '<' :: 's' :: 't' :: 'r' :: 'o' :: 'n' :: 'g' :: '>' ::
        (sv.data ++ '<' :: 'b' :: 'r' :: '>' ::
          (sw.data ++ '<' :: '/' :: 's' :: 't' :: 'r' :: 'o' :: 'n' :: 'g' :: '>' :: sz.data)) := by
    simp [String.data_append]
  show (⟨convL (su ++ "<strong>" ++ sv ++ "<br>" ++ sw ++ "</strong>" ++ sz).data⟩ : String) =
    su ++ "<b>" ++ sv ++ "<br/>" ++ sw ++ "</b>" ++ sz
  rw [hdata, convL_strong_br hu hv hw hz hu2 hz2]
  apply mk_data_eq
  simp [String.data_append]

/-- C7, witness: a concrete literal-tag fragment is fully rewritten. -/
theorem c7_witness :
    simple_html_converter
        ("a" ++ "<strong>" ++ "bold" ++ "<br>" ++ "x" ++ "</strong>" ++ "end") =
      "a" ++ "<b>" ++ "bold" ++ "<br/>" ++ "x" ++ "</b>" ++ "end" :=
  c7_amended_literal_tag_rewrites "a" "bold" "x" "end"
    (by decide) (by decide) (by decide) (by decide) (by decide) (by decide)

/-- The full conversion pipeline on `a<span…>b` where the span tag's
interior stays on one line: the whole tag is deleted and only the stripped
surroundings remain. -/
theorem convL_span {a inner b : List Char}
    (ha : ∀ c ∈ a, c ≠ '<' ∧ c ≠ '"') (hb : ∀ c ∈ b, c ≠ '<' ∧ c ≠ '"')
    (hin : ∀ c ∈ inner, c ≠ '>' ∧ c ≠ '\n' ∧ c ≠ '<' ∧ c ≠ '"') :
    convL (a ++ '<' :: 's' :: 'p' :: 'a' :: 'n' :: (inner ++ '>' :: b)) =
      pstrip (a ++ b) := by
  have hat : ∀ c ∈ a, trigLt c = false := fun c hc => trigLt_false_of_ne (ha c hc).1
  have hbt : ∀ c ∈ b, trigLt c = false := fun c hc => trigLt_false_of_ne (hb c hc).1
  have hint : ∀ c ∈ inner, trigLt c = false :=
    fun c hc => trigLt_false_of_ne (hin c hc).2.2.1
  have e1 : stripOpen ['p'] (a ++ '<' :: 's' :: 'p' :: 'a' :: 'n' :: (inner ++ '>' :: b)) =
      a ++ '<' :: 's' :: 'p' :: 'a' :: 'n' :: (inner ++ '>' :: b) :=
    stripOpen_id_mixed (fun c hc => (ha c hc).1) (by decide)
  have e2 : scanSubT (closeM ['p'])
      (a ++ '<' :: 's' :: 'p' :: 'a' :: 'n' :: (inner ++ '>' :: b)) =
      a ++ '<' :: 's' :: 'p' :: 'a' :: 'n' :: (inner ++ '>' :: b) := by
    have E0 : EmitsEnd (closeM ['p']) b b := (Emits.of_skip (closeM_trig ['p']) hbt).stop
    have E1 := (Emits.of_skip (closeM_trig ['p'])
      (by decide : ∀ c ∈ ['>'], trigLt c = false)).seq_end E0
    have E2 := (Emits.of_skip (closeM_trig ['p']) hint).seq_end E1
    have E3 := (Emits.of_skip (closeM_trig ['p'])
      (by decide : ∀ c ∈ ['p', 'a', 'n'], trigLt c = false)).seq_end E2
    have E4 := (Emits.of_step2 (m := closeM ['p']) (x := '<') (y := 's')
      (fun r => closeM_none_second (by decide))
      (fun r => closeM_trig ['p'] 's' r (by decide))).seq_end E3
    have E5 := (Emits.of_skip (closeM_trig ['p']) hat).seq_end E4
    exact E5
  have e3 : stripOpen ['t', 'd']
      (a ++ '<' :: 's' :: 'p' :: 'a' :: 'n' :: (inner ++ '>' :: b)) =
      a ++ '<' :: 's' :: 'p' :: 'a' :: 'n' :: (inner ++ '>' :: b) :=
    stripOpen_id_mixed (fun c hc => (ha c hc).1) (by decide)
  have e4 : scanSubT (closeM ['t', 'd'])
      (a ++ '<' :: 's' :: 'p' :: 'a' :: 'n' :: (inner ++ '>' :: b)) =
      a ++ '<' :: 's' :: 'p' :: 'a' :: 'n' :: (inner ++ '>' :: b) := by
    have E0 : EmitsEnd (closeM ['t', 'd']) b b :=
      (Emits.of_skip (closeM_trig ['t', 'd']) hbt).stop
    have E1 := (Emits.of_skip (closeM_trig ['t', 'd'])
      (by decide : ∀ c ∈ ['>'], trigLt c = false)).seq_end E0
    have E2 := (Emits.of_skip (closeM_trig ['t', 'd']) hint).seq_end E1
    have E3 := (Emits.of_skip (closeM_trig ['t', 'd'])
      (by decide : ∀ c ∈ ['p', 'a', 'n'], trigLt c = false)).seq_end E2
    have E4 := (Emits.of_step2 (m := closeM ['t', 'd']) (x := '<') (y := 's')
      (fun r => closeM_none_second (by decide))
      (fun r => closeM_trig ['t', 'd'] 's' r (by decide))).seq_end E3
    have E5 := (Emits.of_skip (closeM_trig ['t', 'd']) hat).seq_end E4
    exact E5
  have e5 : scanSubT (replM ['<', 's', 't', 'r', 'o', 'n', 'g', '>'] ['<', 'b', '>'])
      (a ++ '<' :: 's' :: 'p' :: 'a' :: 'n' :: (inner ++ '>' :: b)) =
      a ++ '<' :: 's' :: 'p' :: 'a' :: 'n' :: (inner ++ '>' :: b) := by
    have E0 : EmitsEnd (replM ['<', 's', 't', 'r', 'o', 'n', 'g', '>'] ['<', 'b', '>']) b b :=
      (Emits.of_skip replM_trig hbt).stop
    have E1 := (Emits.of_skip
      (m := replM ['<', 's', 't', 'r', 'o', 'n', 'g', '>'] ['<', 'b', '>']) replM_trig
      (by decide : ∀ c ∈ ['>'], trigLt c = false)).seq_end E0
    have E2 := (Emits.of_skip
      (m := replM ['<', 's', 't', 'r', 'o', 'n', 'g', '>'] ['<', 'b', '>']) replM_trig
      hint).seq_end E1
    have E3 := (Emits.of_skip
      (m := replM ['<', 's', 't', 'r', 'o', 'n', 'g', '>'] ['<', 'b', '>']) replM_trig
      (by decide : ∀ c ∈ ['a', 'n'], trigLt c = false)).seq_end E2
    have E4 := (Emits.of_step3 (x := '<') (y := 's') (z := 'p')
      (fun r => replM_none3 (by decide))
      (fun r => replM_trig 's' ('p' :: r) (by decide))
      (fun r => replM_trig 'p' r (by decide))).seq_end E3
    have E5 := (Emits.of_skip replM_trig hat).seq_end E4
    exact E5
  have e6 : scanSubT (replM ['<', '/', 's', 't', 'r', 'o', 'n', 'g', '>'] ['<', '/', 'b', '>'])
      (a ++ '<' :: 's' :: 'p' :: 'a' :: 'n' :: (inner ++ '>' :: b)) =
      a ++ '<' :: 's' :: 'p' :: 'a' :: 'n' :: (inner ++ '>' :: b) := by
    have E0 : EmitsEnd (replM ['<', '/', 's', 't', 'r', 'o', 'n', 'g', '>'] ['<', '/', 'b', '>']) b b :=
      (Emits.of_skip replM_trig hbt).stop
    have E1 := (Emits.of_skip
      (m := replM ['<', '/', 's', 't', 'r', 'o', 'n', 'g', '>'] ['<', '/', 'b', '>']) replM_trig
      (by decide : ∀ c ∈ ['>'], trigLt c = false)).seq_end E0
    have E2 := (Emits.of_skip
      (m := replM ['<', '/', 's', 't', 'r', 'o', 'n', 'g', '>'] ['<', '/', 'b', '>']) replM_trig
      hint).seq_end E1
    have E3 := (Emits.of_skip
      (m := replM ['<', '/', 's', 't', 'r', 'o', 'n', 'g', '>'] ['<', '/', 'b', '>']) replM_trig
      (by decide : ∀ c ∈ ['p', 'a', 'n'], trigLt c = false)).seq_end E2
    have E4 := (Emits.of_step2 (x := '<') (y := 's')
      (fun r => replM_none2 (by decide))
      (fun r => replM_trig 's' r (by decide))).seq_end E3
    have E5 := (Emits.of_skip replM_trig hat).seq_end E4
    exact E5
  have e7 : scanSubT (replM ['<', 'b', 'r', '>'] ['<', 'b', 'r', '/', '>'])
      (a ++ '<' :: 's' :: 'p' :: 'a' :: 'n' :: (inner ++ '>' :: b)) =
      a ++ '<' :: 's' :: 'p' :: 'a' :: 'n' :: (inner ++ '>' :: b) := by
    have E0 : EmitsEnd (replM ['<', 'b', 'r', '>'] ['<', 'b', 'r', '/', '>']) b b :=
      (Emits.of_skip replM_trig hbt).stop
    have E1 := (Emits.of_skip
      (m := replM ['<', 'b', 'r', '>'] ['<', 'b', 'r', '/', '>']) replM_trig
      (by decide : ∀ c ∈ ['>'], trigLt c = false)).seq_end E0
    have E2 := (Emits.of_skip
      (m := replM ['<', 'b', 'r', '>'] ['<', 'b', 'r', '/', '>']) replM_trig
      hint).seq_end E1
    have E3 := (Emits.of_skip
      (m := replM ['<', 'b', 'r', '>'] ['<', 'b', 'r', '/', '>']) replM_trig
      (by decide : ∀ c ∈ ['p', 'a', 'n'], trigLt c = false)).seq_end E2
    have E4 := (Emits.of_step2 (x := '<') (y := 's')
      (fun r => replM_none2 (by decide))
      (fun r => replM_trig 's' r (by decide))).seq_end E3
    have E5 := (Emits.of_skip replM_trig hat).seq_end E4
    exact E5
  have e8 : scanSubT spanM
      (a ++ '<' :: 's' :: 'p' :: 'a' :: 'n' :: (inner ++ '>' :: b)) = a ++ b := by
    have hin2 : ∀ c ∈ inner, c ≠ '>' ∧ c ≠ '\n' :=
      fun c hc => ⟨(hin c hc).1, (hin c hc).2.1⟩
    have hm : ∀ b', spanM (('<' :: 's' :: 'p' :: 'a' :: 'n' :: (inner ++ ['>'])) ++ b') =
        some ([], b') := by
      intro b'
      have hsh : ('<' :: 's' :: 'p' :: 'a' :: 'n' :: (inner ++ ['>'])) ++ b' =
          '<' :: 's' :: 'p' :: 'a' :: 'n' :: (inner ++ '>' :: b') := by simp
      rw [hsh]
      exact spanM_fire hin2 b'
    have E0 : EmitsEnd spanM b b := (Emits.of_skip spanM_trig hbt).stop
    have E1 := (Emits.of_fire spanM_shrinks hm).seq_end E0
    have E2' : scanSubT spanM
        (a ++ (('<' :: 's' :: 'p' :: 'a' :: 'n' :: (inner ++ ['>'])) ++ b)) =
        a ++ ([] ++ b) := (Emits.of_skip spanM_trig hat).seq_end E1
    have hbridge : a ++ '<' :: 's' :: 'p' :: 'a' :: 'n' :: (inner ++ '>' :: b) =
        a ++ (('<' :: 's' :: 'p' :: 'a' :: 'n' :: (inner ++ ['>'])) ++ b) := by simp
    rw [hbridge]
    exact E2'.trans (by simp)
  have e9 : scanSubT styleM (a ++ b) = a ++ b := by
    apply scanSubT_id_mem (fun x => styleM_need)
    exact not_mem_app (fun h => (ha _ h).2 rfl) (fun h => (hb _ h).2 rfl)
  unfold convL
  rw [e1, e2, e3, e4, e5, e6, e7, e8, e9]

/-- C3, counterexample: deleting a span tag can splice the surrounding text
into a new span tag.  The input `<<span>span >` contains the span tag
`<span>`; after the single removal pass the output is `<span >` — itself a
span tag — so the output is not span-free. -/
theorem c3_counterexample :
    ciInfixB ['<', 's', 'p', 'a', 'n'] ("<<span>span >").data = true ∧
      simple_html_converter "<<span>span >" = "<span >" ∧
      ciInfixB ['<', 's', 'p', 'a', 'n']
        (simple_html_converter "<<span>span >").data = true := by
  refine ⟨by decide, by decide, by decide⟩

/-- C3 (amended): for a fragment `a<span…>b` holding one single-line span
tag (any attributes without `>`, `"` or a newline) between segments free of
tag and attribute characters, the converter deletes the whole tag and the
output contains no span tag, no span closer and no `style="` substring.  In
general the claim fails: a removal can splice a new span tag together, and
such a spliced tag survives the single pass. -/
theorem c3_amended_single_span_removed (sa sin sb : String)
    (ha : ∀ c ∈ sa.data, c ≠ '<' ∧ c ≠ '"')
    (hb : ∀ c ∈ sb.data, c ≠ '<' ∧ c ≠ '"')
    (hin : ∀ c ∈ sin.data, c ≠ '>' ∧ c ≠ '\n' ∧ c ≠ '<' ∧ c ≠ '"') :
    ciInfixB ['<', 's', 'p', 'a', 'n']
        (simple_html_converter (sa ++ "<span" ++ sin ++ ">" ++ sb)).data = false ∧
      ciInfixB ['<', '/', 's', 'p', 'a', 'n']
        (simple_html_converter (sa ++ "<span" ++ sin ++ ">" ++ sb)).data = false ∧
      ciInfixB ['s', 't', 'y', 'l', 'e', '=', '"']
        (simple_html_converter (sa ++ "<span" ++ sin ++ ">" ++ sb)).data = false := by
  have hdata : (sa ++ "<span" ++ sin ++ ">" ++ sb).data =
      sa.data ++ '<' :: 's' :: 'p' :: 'a' :: 'n' :: (sin.data ++ '>' :: sb.data) := by
    simp [String.data_append]
  have hconv : (simple_html_converter (sa ++ "<span" ++ sin ++ ">" ++ sb)).data =
      pstrip (sa.data ++ sb.data) := by
    rw [simple_html_converter_data, hdata]
    exact convL_span ha hb hin
  have hlt : ('<' : Char) ∉ pstrip (sa.data ++ sb.data) := fun h =>
    not_mem_app (fun h2 => (ha _ h2).1 rfl) (fun h2 => (hb _ h2).1 rfl)
      (pstrip_subset h)
  have hqt : ('"' : Char) ∉ pstrip (sa.data ++ sb.data) := fun h =>
    not_mem_app (fun h2 => (ha _ h2).2 rfl) (fun h2 => (hb _ h2).2 rfl)
      (pstrip_subset h)
  rw [hconv]
  exact ⟨ciInfixB_false_of_missing (by decide) (by decide) hlt,
    ciInfixB_false_of_missing (by decide) (by decide) hlt,
    ciInfixB_false_of_missing (by decide) (by decide) hqt⟩

/-- C3, witness: a concrete span wrapper with an attribute is removed and
the output is free of span tags and style attributes. -/
theorem c3_witness :
    ciInfixB ['<', 's', 'p', 'a', 'n']
        (simple_html_converter ("x " ++ "<span" ++ " class=big" ++ ">" ++ "tail")).data = false ∧
      ciInfixB ['<', '/', 's', 'p', 'a', 'n']
        (simple_html_converter ("x " ++ "<span" ++ " class=big" ++ ">" ++ "tail")).data = false ∧
      ciInfixB ['s', 't', 'y', 'l', 'e', '=', '"']
        (simple_html_converter ("x " ++ "<span" ++ " class=big" ++ ">" ++ "tail")).data = false :=
  c3_amended_single_span_removed "x " " class=big" "tail"
    (by decide) (by decide) (by decide)

/-- C9: whenever extraction succeeds, each sequence field preserves document
order and has length equal to the number of matching source elements —
projects count the `h3` headings (which `find_all` reports as a
document-order sublist of the descendants), skills and achievements count
the `li` items, and the table rows are read from the table's first `tbody`
only (every extracted row is a descendant of that `tbody`, so a header row
outside it is excluded); zero matching elements yield an empty sequence
while extraction still succeeds. -/
theorem c9_sequences (d : SourceDoc) (r : CVSeqs) (h : extractSeqs d = some r) :
    r.projects.length = (findAll "h3" d.projectsArticle).length ∧
      List.Sublist (findAll "h3" d.projectsArticle) (Node.desc d.projectsArticle) ∧
      r.skills = (findAll "li" d.skillsList).map getText ∧
      r.skills.length = (findAll "li" d.skillsList).length ∧
      List.Sublist (findAll "li" d.skillsList) (Node.desc d.skillsList) ∧
      r.achievements.length = (findAll "li" d.achList).length ∧
      (∀ tb, findFirst "tbody" d.expTable = some tb →
        isTag "tbody" tb = true ∧ tb ∈ Node.desc d.expTable ∧
          r.experience.length = (findAll "tr" tb).length ∧
          ∀ n ∈ findAll "tr" tb, n ∈ Node.desc tb) ∧
      (∀ tb, findFirst "tbody" d.eduTable = some tb →
        r.education.length = (findAll "tr" tb).length) ∧
      (findAll "h3" d.projectsArticle = [] → r.projects = []) ∧
      (findAll "li" d.skillsList = [] → r.skills = []) := by
  unfold extractSeqs at h
  split at h
  case _ etb dtb he hd =>
    split at h
    case _ exps edus hex hed =>
      cases h
      refine ⟨?_, List.filter_sublist _, rfl, by simp, List.filter_sublist _,
        by simp, ?_, ?_, ?_, ?_⟩
      · show ((Node.projPairs d.projectsArticle).map _).length = _
        rw [List.length_map, ← projPairs_fst_node d.projectsArticle,
          List.length_map]
      · intro tb htb
        rw [he] at htb
        cases htb
        have hmem : etb ∈ findAll "tbody" d.expTable := by
          unfold findFirst at he
          cases hfa : findAll "tbody" d.expTable with
          | nil => rw [hfa] at he; cases he
          | cons x xs =>
            rw [hfa] at he
            cases he
            simp
        have hfil := List.mem_filter.mp hmem
        refine ⟨hfil.2, hfil.1, optMapM_length hex, ?_⟩
        intro n hn
        exact (List.mem_filter.mp hn).1
      · intro tb htb
        rw [hd] at htb
        cases htb
        exact optMapM_length hed
      · intro hnil
        show (Node.projPairs d.projectsArticle).map _ = []
        have : (Node.projPairs d.projectsArticle).map Prod.fst = [] := by
          rw [projPairs_fst_node, hnil]
        have h2 : Node.projPairs d.projectsArticle = [] := by
          cases hpp : Node.projPairs d.projectsArticle with
          | nil => rfl
          | cons p ps => rw [hpp] at this; cases this
        rw [h2]
        rfl
      · intro hnil
        show (findAll "li" d.skillsList).map getText = []
        rw [hnil]
        rfl
    case _ => cases h
  case _ => cases h

/-- C9, witness: on a concrete document whose experience table has a header
row inside `thead` and two body rows inside `tbody`, extraction succeeds
with sequence lengths 1/2/1/2/1, the header row being excluded. -/
theorem c9_witness :
    extractSeqs sampleDoc =
      some ⟨[("P1", "D1")], [("Dev", "Acme", "2020"), ("Ops", "Beta", "2021")],
        [("UFS", "BSc", "2010")], ["R", "Python"], ["Award"]⟩ ∧
      (⟨[("P1", "D1")], [("Dev", "Acme", "2020"), ("Ops", "Beta", "2021")],
        [("UFS", "BSc", "2010")], ["R", "Python"], ["Award"]⟩ : CVSeqs).projects.length =
        (findAll "h3" sampleDoc.projectsArticle).length ∧
      (⟨[("P1", "D1")], [("Dev", "Acme", "2020"), ("Ops", "Beta", "2021")],
        [("UFS", "BSc", "2010")], ["R", "Python"], ["Award"]⟩ : CVSeqs).experience.length = 2 :=
  ⟨by decide,
    (c9_sequences sampleDoc
      ⟨[("P1", "D1")], [("Dev", "Acme", "2020"), ("Ops", "Beta", "2021")],
        [("UFS", "BSc", "2010")], ["R", "Python"], ["Award"]⟩ (by decide)).1,
    by decide⟩
